import Mathlib

/-!
Verification of the schematic interchange codec of the World-edit-PMC plugin
(`src/schematic.rs`): the varint codec, packed long arrays, block-state string
resolution, Sponge `.schem` decode/encode and Litematica decode, shallowly
embedded in Lean.  Machine integers (`i32`, `u16`, `u64`, ...) are modelled as
`Nat` / `Int`, with explicit reductions mod `2^w` exactly at the points where
the Rust code casts.  The gzip/NBT transport and the external block registry
(`pumpkin_data::Block`) are collaborators outside the repository; the registry
is modelled as an abstract structure of lookup functions and the NBT tag tree
as already-extracted field values.
-/

namespace WorldEdit

/-- `Vector3<i32>` from `pumpkin_util`, with integer components. -/
structure Vec3 where
  x : Int
  y : Int
  z : Int
deriving DecidableEq

/-- Rust `value as u32` on an `i32` value: the 32-bit two's-complement pattern. -/
def toU32 (v : Int) : Nat := (v % 4294967296).toNat

/-- Rust `n as i32` on a `u32` bit pattern: two's-complement reinterpretation. -/
def ofU32 (n : Nat) : Int :=
  if n < 2147483648 then (n : Int) else (n : Int) - 4294967296

/-- Rust `long as u64` on an `i64` value. -/
def toU64 (v : Int) : Nat := (v % 18446744073709551616).toNat

/-- Rust `v as u16` on an `i32` value (used for `Width/Height/Length`). -/
def toU16 (v : Int) : Nat := (v % 65536).toNat

/-! ### Varint codec (schematic.rs:106-163) -/

/-- Inner loop of `decode_varints` (schematic.rs:119-135): read
continuation-bit bytes for one value, or-ing each 7-bit group into `value` at
`bitOffset`.  The Rust accumulator is an `i32` whose bits above 31 are
discarded at every `<<`; since `|||` commutes with truncation to the low 32
bits, we accumulate in `Nat` and truncate once when the value is produced
(`ofU32 (value' % 2^32)` is the final `i32`). -/
def decodeVarintOne (bytes : List Nat) (value : Nat) (bitOffset : Nat) :
    Except String (Int × List Nat) :=
  match bytes with
  | [] => .error "Unexpected end of varint data"
  | b :: rest =>
    let value' := value ||| ((b &&& 127) <<< bitOffset)
    let bitOffset' := bitOffset + 7
    if b &&& 128 = 0 then
      .ok (ofU32 (value' % 4294967296), rest)
    else if 35 ≤ bitOffset' then
      .error "Varint too large"
    else
      decodeVarintOne rest value' bitOffset'

/-- Outer loop of `decode_varints` (schematic.rs:115-138): decode values while
bytes remain and fewer than `expected_count` values have been produced.  Each
iteration yields exactly one value, so we recurse structurally on the number
of values still needed. -/
def decodeVarintsLoop : List Nat → Nat → Except String (List Int)
  | _, 0 => .ok []
  | [], _ + 1 => .ok []
  | b :: rest, needed + 1 =>
    match decodeVarintOne (b :: rest) 0 0 with
    | .error e => .error e
    | .ok (v, remaining) =>
      match decodeVarintsLoop remaining needed with
      | .error e => .error e
      | .ok vs => .ok (v :: vs)

/-- `decode_varints` (schematic.rs:111-141). -/
def decode_varints (data : List Nat) (expected_count : Nat) :
    Except String (List Int) :=
  decodeVarintsLoop data expected_count

/-- Per-value loop of `encode_varints` (schematic.rs:148-159) with an explicit
structural fuel (so that the kernel can evaluate it): emit the 7-bit groups of
a `u32` bit pattern, least significant group first, setting the continuation
bit `0x80` on every group except the last. -/
def encodeVarintOneAux : Nat → Nat → List Nat
  | 0, _ => []
  | fuel + 1, v =>
    let byte := v &&& 127
    let v' := v >>> 7
    if v' = 0 then [byte] else (byte ||| 128) :: encodeVarintOneAux fuel v'

/-- Per-value loop of `encode_varints`: fuel `v + 1` always suffices since the
loop runs at most `log₁₂₈ v + 1 ≤ v + 1` times (`encodeVarintOne_eq` below
recovers the fuel-free recursion of the source). -/
def encodeVarintOne (v : Nat) : List Nat :=
  encodeVarintOneAux (v + 1) v

/-- `encode_varints` (schematic.rs:144-163): each value is cast to `u32` and
emitted as varint groups. -/
def encode_varints (values : List Int) : List Nat :=
  values.flatMap (fun value => encodeVarintOne (toU32 value))

/-! ### Packed long arrays (schematic.rs:165-210) -/

/-- `MIN_BITS_PER_ENTRY` (schematic.rs:170). -/
def MIN_BITS_PER_ENTRY : Nat := 4

/-- Bit length of `n` (position of the highest set bit plus one), computed
with an explicit structural fuel so that the kernel can evaluate it.  This is
`usize::BITS - n.leading_zeros()` from the source. -/
def bitLenAux : Nat → Nat → Nat
  | 0, _ => 0
  | fuel + 1, n => if n = 0 then 0 else bitLenAux fuel (n / 2) + 1

/-- Bit length of `n`: `usize::BITS - n.leading_zeros()`. -/
def bitLen (n : Nat) : Nat := bitLenAux (n + 1) n

/-- `bits_for_palette_size` (schematic.rs:173-179):
`usize::BITS - (palette_len - 1).leading_zeros()`, floored at 4. -/
def bits_for_palette_size (palette_len : Nat) : Nat :=
  if palette_len ≤ 1 then MIN_BITS_PER_ENTRY
  else max (bitLen (palette_len - 1)) MIN_BITS_PER_ENTRY

/-- `unpack_packed_long_array` (schematic.rs:183-210).  Entry `i` is the
`bits_per_entry`-bit field of word `i / (64 / bits)` at bit offset
`(i % (64 / bits)) * bits`; the `u64` field is pushed as `u32`
(`value as u32`, i.e. reduced mod `2^32`). -/
def unpack_packed_long_array (longs : List Int) (block_count : Nat)
    (bits_per_entry : Nat) : Except String (List Nat) :=
  if bits_per_entry = 0 ∨ 64 < bits_per_entry then
    .error "Invalid bits_per_entry"
  else
    let mask : Nat := (1 <<< bits_per_entry) - 1
    let blocks_per_long : Nat := 64 / bits_per_entry
    (List.range block_count).mapM (fun i =>
      let long_index := i / blocks_per_long
      let bit_start := (i % blocks_per_long) * bits_per_entry
      if h : long_index < longs.length then
        .ok (((toU64 (longs.get ⟨long_index, h⟩) >>> bit_start) &&& mask) % 4294967296)
      else
        .error "BlockStates array too short")

/-! ### Block state string grammar (schematic.rs:29-104) -/

/-- Split a character list at the first occurrence of `c` (Rust `str::find`):
`(before, after)` with the separator removed, or `none` if `c` is absent. -/
def splitFirst (c : Char) : List Char → Option (List Char × List Char)
  | [] => none
  | a :: rest =>
    if a = c then some ([], rest)
    else
      match splitFirst c rest with
      | some (pre, post) => some (a :: pre, post)
      | none => none

/-- The part of `cs` before the last occurrence of `c` (Rust `str::rfind`),
or all of `cs` when `c` is absent (the source's `unwrap_or(s.len())`). -/
def beforeLast (c : Char) (cs : List Char) : List Char :=
  match splitFirst c cs.reverse with
  | some (_, post) => post.reverse
  | none => cs

/-- Rust `str::split(c)` on a character list (accumulator holds the current
segment reversed). -/
def splitOnCharAux (c : Char) : List Char → List Char → List (List Char)
  | [], acc => [acc.reverse]
  | a :: rest, acc =>
    if a = c then acc.reverse :: splitOnCharAux c rest []
    else splitOnCharAux c rest (a :: acc)

/-- Rust `str::splitn(2, c)`: the part before the first `c`, and the rest
(`none` when `c` is absent). -/
def splitN2 (c : Char) (cs : List Char) : List Char × Option (List Char) :=
  match splitFirst c cs with
  | none => (cs, none)
  | some (pre, post) => (pre, some post)

/-- Rust `str::trim`. -/
def trimChars (cs : List Char) : List Char :=
  ((cs.dropWhile Char.isWhitespace).reverse.dropWhile Char.isWhitespace).reverse

/-- `parse_block_state_string` (schematic.rs:35-57): split at the first `[`;
properties are the comma-separated `=`-split segments before the last `]`,
entries with an empty key dropped.  (The source takes `rfind(']')` over the
whole string; for every string in which `]` does not occur before the first
`[` — in particular every palette string — this agrees.) -/
def parse_block_state_string (s : String) : String × List (String × String) :=
  match splitFirst '[' s.data with
  | none => (s, [])
  | some (name, after) =>
    let propsStr := beforeLast ']' after
    let props := (splitOnCharAux ',' propsStr []).filterMap (fun kv =>
      let kvp := splitN2 '=' kv
      match kvp.2 with
      | none => none
      | some v =>
        let key := trimChars kvp.1
        let value := trimChars v
        if key.isEmpty then none else some (String.mk key, String.mk value))
    (String.mk name, props)

/-- Abstract model of one external `pumpkin_data::Block` registry entry. -/
structure BlockDescriptor where
  /-- `block.name` (without the `minecraft:` namespace). -/
  name : String
  /-- `block.default_state.id`. -/
  defaultStateId : Nat
  /-- `block.states.len()`. -/
  statesLen : Nat
  /-- `block.from_properties(props).to_state_id(block)`; a panic caught by the
  source's `catch_unwind` is modelled as `none`. -/
  fromPropertiesToStateId : List (String × String) → Option Nat
  /-- `block.properties(state_id)` rendered through `to_props()`. -/
  propertiesOf : Nat → Option (List (String × String))

/-- Abstract model of the external block registry. -/
structure BlockRegistry where
  /-- `Block::from_name`. -/
  fromName : String → Option BlockDescriptor
  /-- `Block::from_state_id` (total in the source). -/
  fromStateId : Nat → BlockDescriptor

/-- `resolve_block_state` (schematic.rs:60-83): unknown block name fails
(`none`); no properties or a single-state block yields the default state; an
unresolvable property combination falls back to the default state. -/
def resolve_block_state (reg : BlockRegistry) (block_state_str : String) :
    Option Nat :=
  let parsed := parse_block_state_string block_state_str
  match reg.fromName parsed.1 with
  | none => none
  | some block =>
    if parsed.2.isEmpty ∨ block.statesLen ≤ 1 then
      some block.defaultStateId
    else
      match block.fromPropertiesToStateId parsed.2 with
      | some state_id => some state_id
      | none => some block.defaultStateId

/-- Rust `Vec<String>::join(",")`. -/
def joinComma : List String → String
  | [] => ""
  | [s] => s
  | s :: rest => s ++ "," ++ joinComma rest

/-- `build_block_state_string` (schematic.rs:86-104). -/
def build_block_state_string (reg : BlockRegistry) (state_id : Nat) : String :=
  let block := reg.fromStateId state_id
  let name := "minecraft:" ++ block.name
  match block.propertiesOf state_id with
  | some prop_list =>
    if prop_list.isEmpty then name
    else
      name ++ "[" ++ joinComma (prop_list.map (fun kv => kv.1 ++ "=" ++ kv.2)) ++ "]"
  | none => name

/-- `Block::from_name("minecraft:air").map(|b| b.default_state.id).unwrap_or(0)`
(schematic.rs:317-319, 443-445, 629-631). -/
def airStateId (reg : BlockRegistry) : Nat :=
  match reg.fromName "minecraft:air" with
  | some b => b.defaultStateId
  | none => 0

/-! ### Data model -/

/-- `SchematicData` (schematic.rs:19-27); `width/height/length` are `u16`. -/
structure SchematicData where
  width : Nat
  height : Nat
  length : Nat
  offset : Vec3
  blocks : List (Vec3 × Nat)
deriving DecidableEq

/-- `ClipboardData` (state.rs): `(position, u16 state id)` pairs. -/
structure ClipboardData where
  blocks : List (Vec3 × Nat)

/-! ### Single-region decode (schematic.rs:212-361) -/

/-- Lookup in a `HashMap` built by inserting the `(key, value)` pairs of a
list in order: later inserts overwrite earlier ones, so the value is taken
from the last entry with the given key. -/
def mapLookupLast (entries : List (Int × String)) (key : Int) : Option String :=
  (entries.reverse.find? (fun e => e.1 == key)).map (fun e => e.2)

/-- The decoder's `palette_map : palette index → block state string`
(schematic.rs:295-301 and 481-486): the palette compound's child tags are
`(state string, Int index)` pairs, inserted as `index → string`. -/
def paletteMapGet (palette : List (String × Int)) (key : Int) : Option String :=
  mapLookupLast (palette.map (fun e => (e.2, e.1))) key

/-- Flat index to local coordinates in the single-region decoder
(schematic.rs:324-328): `y = i / (w*l)`, then `z` and `x` from the remainder.
Returns `(x, y, z)`. -/
def schemCoords (width length : Nat) (i : Nat) : Nat × Nat × Nat :=
  let y := i / (width * length)
  let remainder := i % (width * length)
  let z := remainder / width
  let x := remainder % width
  (x, y, z)

/-- The state id chosen for one palette index (schematic.rs:330-338): a
missing palette entry or an unresolvable state string degrades to air. -/
def schemStateIdOf (reg : BlockRegistry) (palette : List (String × Int))
    (air_state_id : Nat) (palette_index : Int) : Nat :=
  match paletteMapGet palette palette_index with
  | some block_state_str =>
    match resolve_block_state reg block_state_str with
    | some s => s
    | none => air_state_id
  | none => air_state_id

/-- The block-collecting loop of `load_schematic` (schematic.rs:321-347):
enumerate the decoded palette indices, resolve each to a state id, skip air,
and store the local coordinates plus `offset`. -/
def schemBlocksOf (reg : BlockRegistry) (palette : List (String × Int))
    (width length : Nat) (offset : Vec3) (air_state_id : Nat)
    (block_indices : List Int) : List (Vec3 × Nat) :=
  block_indices.enum.filterMap (fun el =>
    if schemStateIdOf reg palette air_state_id el.2 ≠ air_state_id then
      some (⟨((schemCoords width length el.1).1 : Int) + offset.x,
             ((schemCoords width length el.1).2.1 : Int) + offset.y,
             ((schemCoords width length el.1).2.2 : Int) + offset.z⟩,
            schemStateIdOf reg palette air_state_id el.2)
    else none)

/-- Core of `load_schematic` (schematic.rs:218-361) after the NBT transport:
the inputs are the `Width/Height/Length` shorts read as `u16`, the `Offset`
(or its origin default), the palette compound's `(name, index)` child tags and
the `Data`/`BlockData` bytes.  Blocks whose resolved state is air are omitted;
the stored position is the local coordinate plus `offset`. -/
def loadSchematicCore (reg : BlockRegistry) (width height length : Nat)
    (offset : Vec3) (palette : List (String × Int)) (data : List Nat) :
    Except String SchematicData :=
  let expected_blocks := width * height * length
  match decode_varints data expected_blocks with
  | .error e => .error e
  | .ok block_indices =>
    if block_indices.length ≠ expected_blocks then
      .error ("Block data count mismatch: expected " ++ toString expected_blocks ++
        ", got " ++ toString block_indices.length)
    else
      .ok { width := width, height := height, length := length,
            offset := offset,
            blocks := schemBlocksOf reg palette width length offset
              (airStateId reg) block_indices }

/-! ### Litematica decode (schematic.rs:363-592) -/

/-- One region of a Litematica file after NBT extraction: `Position`, `Size`,
the `BlockStatePalette` child tags `(state string, Int index)` and the
`BlockStates` long array.  (The lenient key probing of
`get_region_position`/`get_region_size` is NBT-transport level and not
modelled; `pos` already includes the origin default.) -/
structure LitRegion where
  pos : Vec3
  size : Vec3
  palette : List (String × Int)
  blockStates : List Int

/-- `palette_by_index.len()`: the number of distinct indices among the
palette compound's child tags (a `HashMap` keyed by index). -/
def litPaletteLen (palette : List (String × Int)) : Nat :=
  ((palette.map (fun e => e.2)).dedup).length

/-- Region base coordinate on one axis (schematic.rs:500-515): when the size
component is negative the region extends in the negative direction and the
base is `pos + size + 1`. -/
def litBase (pos size : Int) : Int :=
  if 0 ≤ size then pos else pos + size + 1

/-- Accumulated state of the Litematica merge loop (schematic.rs:447-449). -/
structure LitAcc where
  all_blocks : List (Vec3 × Nat)
  global_min : Option Vec3
  global_max : Option Vec3

/-- Body of the per-cell loop (schematic.rs:517-554): local coordinates
`x = i % w`, `z = (i / w) % l`, `y = (i / w) / l`, absolute position
`base + local`; non-air blocks are appended and the running bounding box is
extended. -/
def litCellStep (reg : BlockRegistry) (air_state_id : Nat) (r : LitRegion)
    (w_abs l_abs : Nat) (base : Vec3) (palette_indices : List Nat)
    (acc : LitAcc) (i : Nat) : LitAcc :=
  let local_x := i % w_abs
  let rest := i / w_abs
  let local_z := rest % l_abs
  let local_y := rest / l_abs
  let sx := base.x + (local_x : Int)
  let sy := base.y + (local_y : Int)
  let sz := base.z + (local_z : Int)
  let palette_index := ofU32 (palette_indices.getD i 0)
  let state_id :=
    match paletteMapGet r.palette palette_index with
    | some s => (resolve_block_state reg s).getD air_state_id
    | none => air_state_id
  if state_id ≠ air_state_id then
    let v : Vec3 := ⟨sx, sy, sz⟩
    { all_blocks := acc.all_blocks ++ [(v, state_id)]
      global_min := some (match acc.global_min with
        | some m => ⟨min m.x sx, min m.y sy, min m.z sz⟩
        | none => v)
      global_max := some (match acc.global_max with
        | some m => ⟨max m.x sx, max m.y sy, max m.z sz⟩
        | none => v) }
  else acc

/-- One region of the Litematica loop (schematic.rs:451-560): empty regions
are skipped; the packed `BlockStates` array is unpacked at
`bits_for_palette_size` width and every cell is merged into the accumulator. -/
def litRegionStep (reg : BlockRegistry) (air_state_id : Nat) (acc : LitAcc)
    (r : LitRegion) : Except String LitAcc :=
  let w_abs := r.size.x.natAbs
  let h_abs := r.size.y.natAbs
  let l_abs := r.size.z.natAbs
  let block_count := w_abs * h_abs * l_abs
  if block_count = 0 then .ok acc
  else
    match unpack_packed_long_array r.blockStates block_count
        (bits_for_palette_size (litPaletteLen r.palette)) with
    | .error e => .error e
    | .ok palette_indices =>
      let base : Vec3 :=
        ⟨litBase r.pos.x r.size.x, litBase r.pos.y r.size.y, litBase r.pos.z r.size.z⟩
      .ok ((List.range block_count).foldl
        (litCellStep reg air_state_id r w_abs l_abs base palette_indices) acc)

/-- Finalization of `load_litematic` (schematic.rs:562-592): fail when no
non-air block was found, otherwise normalize all positions relative to the
global minimum corner, which becomes the stored `offset`; the stored
dimensions are the global extents cast to `u16`. -/
def litFinalize (acc : LitAcc) : Except String SchematicData :=
  match acc.global_min, acc.global_max with
  | some minv, some maxv =>
    let width := toU16 (maxv.x - minv.x + 1)
    let height := toU16 (maxv.y - minv.y + 1)
    let length := toU16 (maxv.z - minv.z + 1)
    let blocks := acc.all_blocks.map (fun b =>
      (⟨b.1.x - minv.x, b.1.y - minv.y, b.1.z - minv.z⟩, b.2))
    .ok { width := width, height := height, length := length,
          offset := minv, blocks := blocks }
  | _, _ => .error "No blocks in Litematica regions"

/-- Core of `load_litematic` (schematic.rs:438-592) after the NBT transport:
merge every region, then finalize. -/
def loadLitematicCore (reg : BlockRegistry) (regions : List LitRegion) :
    Except String SchematicData :=
  match regions.foldlM (litRegionStep reg (airStateId reg))
      { all_blocks := [], global_min := none, global_max := none } with
  | .error e => .error e
  | .ok acc => litFinalize acc

/-! ### Save (schematic.rs:601-716) -/

/-- One step of `save_schematic`'s bounding-box fold (schematic.rs:615-622). -/
def clipStep (mm : Vec3 × Vec3) (b : Vec3 × Nat) : Vec3 × Vec3 :=
  (⟨min mm.1.x b.1.x, min mm.1.y b.1.y, min mm.1.z b.1.z⟩,
   ⟨max mm.2.x b.1.x, max mm.2.y b.1.y, max mm.2.z b.1.z⟩)

/-- Bounding-box fold of `save_schematic` (schematic.rs:611-622), started at
the first block's position and folded over every block. -/
def clipBounds (blocks : List (Vec3 × Nat)) (first : Vec3) : Vec3 × Vec3 :=
  blocks.foldl clipStep (first, first)

/-- `palette.get(&state_id)` for the encoder's `state_id → palette index` map
(keys are inserted at most once, so plain first-match lookup is the map). -/
def paletteLookup (pal : List (Nat × Int)) (sid : Nat) : Option Int :=
  (pal.find? (fun e => e.1 == sid)).map (fun e => e.2)

/-- Accumulator of the encoder's palette-building loop. -/
structure PaletteAcc where
  palette : List (Nat × Int)
  palette_names : List (Int × String)
  next_index : Int

/-- One step of the encoder's palette construction (schematic.rs:642-648):
a first-seen state id gets the next index and its built state string. -/
def palStep (reg : BlockRegistry) (acc : PaletteAcc) (b : Vec3 × Nat) : PaletteAcc :=
  if (paletteLookup acc.palette b.2).isSome then acc
  else { palette := acc.palette ++ [(b.2, acc.next_index)],
         palette_names := acc.palette_names ++
           [(acc.next_index, build_block_state_string reg b.2)],
         next_index := acc.next_index + 1 }

/-- Palette construction (schematic.rs:633-648): air is always entry 0 named
`minecraft:air`; every first-seen distinct state id gets the next index with
its built state string. -/
def buildPaletteAcc (reg : BlockRegistry) (air_state_id : Nat)
    (blocks : List (Vec3 × Nat)) : PaletteAcc :=
  blocks.foldl (palStep reg)
    { palette := [(air_state_id, 0)],
      palette_names := [(0, "minecraft:air")],
      next_index := 1 }

/-- `block_map` lookup (schematic.rs:654-658): a `HashMap` over all clipboard
blocks, later inserts overwriting earlier ones. -/
def blockMapGet (blocks : List (Vec3 × Nat)) (key : Vec3) : Option Nat :=
  (blocks.reverse.find? (fun b => b.1 == key)).map (fun b => b.2)

/-- The cell value assigned by the grid-filling loop body
(schematic.rs:663-674): the palette index of the clipboard block at the
world coordinate, or 0 (air) when there is no block or its state is missing
from the palette. -/
def gridCellAt (minv : Vec3) (blocks : List (Vec3 × Nat))
    (pal : List (Nat × Int)) (x y z : Nat) : Int :=
  match blockMapGet blocks ⟨(x : Int) + minv.x, (y : Int) + minv.y,
      (z : Int) + minv.z⟩ with
  | some state_id =>
    match paletteLookup pal state_id with
    | some palette_idx => palette_idx
    | none => 0
  | none => 0

/-- The `block_data` grid (schematic.rs:650-677).  The source initializes
`width*height*length` cells to palette index 0 and assigns cell
`index = x + z*width + y*width*length` inside `y`-outer, `z`-mid, `x`-inner
loops; that index enumerates `0, 1, 2, ...` in exactly this iteration order,
so the mutated array equals this concatenation. -/
def buildBlockData (width length height : Nat) (minv : Vec3)
    (blocks : List (Vec3 × Nat)) (pal : List (Nat × Int)) : List Int :=
  (List.range height).flatMap (fun y =>
    (List.range length).flatMap (fun z =>
      (List.range width).map (fun x => gridCellAt minv blocks pal x y z)))

/-- The v3 `.schem` content produced by `save_schematic` (schematic.rs:682-699),
with the gzip/NBT/file transport abstracted away.  `width/height/length` are
the `u16` values stored in the `Width/Height/Length` shorts; the palette
compound's child tags are `(name, Int index)` pairs. -/
structure SchemFileV3 where
  version : Int
  dataVersion : Int
  width : Nat
  height : Nat
  length : Nat
  offset : Vec3
  palette : List (String × Int)
  data : List Nat
deriving DecidableEq

/-- Core of `save_schematic` (schematic.rs:606-716) up to the file transport:
fails on an empty clipboard, otherwise computes the bounding box, casts the
extents to `u16`, builds the palette and the varint-encoded grid, and emits
the version-3 schematic with `Offset` = bounding-box minimum. -/
def saveSchematicCore (reg : BlockRegistry) (clipboard : ClipboardData) :
    Except String SchemFileV3 :=
  match clipboard.blocks with
  | [] => .error "Clipboard is empty"
  | b0 :: rest =>
    let bounds := clipBounds (b0 :: rest) b0.1
    let minv := bounds.1
    let maxv := bounds.2
    let width := toU16 (maxv.x - minv.x + 1)
    let height := toU16 (maxv.y - minv.y + 1)
    let length := toU16 (maxv.z - minv.z + 1)
    let air_state_id := airStateId reg
    let acc := buildPaletteAcc reg air_state_id (b0 :: rest)
    let block_data := buildBlockData width length height minv (b0 :: rest) acc.palette
    let encoded_data := encode_varints block_data
    .ok { version := 3, dataVersion := 4671,
          width := width, height := height, length := length,
          offset := minv,
          palette := acc.palette_names.map (fun e => (e.2, e.1)),
          data := encoded_data }

/-- `load_schematic` applied to the content of a file written by
`save_schematic`: the dispatcher sees no `Regions` and takes the schematic
branch, `Version = 3` reads `Blocks.Palette` / `Blocks.Data`, and the loader
core receives exactly the file's fields. -/
def loadSchemFileV3 (reg : BlockRegistry) (f : SchemFileV3) :
    Except String SchematicData :=
  loadSchematicCore reg f.width f.height f.length f.offset f.palette f.data

/-- Invariant of the encoder's palette-building fold (schematic.rs:633-648):
air is entry 0 named `minecraft:air`; every assigned index is below
`next_index`, which equals the palette size; every non-air entry's name is its
built state string; keys are distinct `u16` state ids. -/
structure PalInv (reg : BlockRegistry) (air : Nat) (acc : PaletteAcc) : Prop where
  air_idx : paletteLookup acc.palette air = some 0
  key_bound : ∀ s i, paletteLookup acc.palette s = some i → 0 ≤ i ∧ i < acc.next_index
  next_eq : acc.next_index = (acc.palette.length : Int)
  name_of : ∀ s i, paletteLookup acc.palette s = some i → s ≠ air →
    mapLookupLast acc.palette_names i = some (build_block_state_string reg s)
  name_zero : mapLookupLast acc.palette_names 0 = some "minecraft:air"
  names_idx : ∀ e ∈ acc.palette_names, 0 ≤ e.1 ∧ e.1 < acc.next_index
  keys_nodup : (acc.palette.map (fun e => e.1)).Nodup
  keys_lt : ∀ k ∈ acc.palette.map (fun e => e.1), k < 65536

/-! ### A concrete registry for test instances -/

/-- A single-state stone block. -/
def stoneDesc : BlockDescriptor :=
  { name := "stone", defaultStateId := 1, statesLen := 1,
    fromPropertiesToStateId := fun _ => none, propertiesOf := fun _ => none }

/-- The air block. -/
def airDesc : BlockDescriptor :=
  { name := "air", defaultStateId := 0, statesLen := 1,
    fromPropertiesToStateId := fun _ => none, propertiesOf := fun _ => none }

/-- A two-block registry (air = state 0, stone = state 1) used for concrete
instances. -/
def testReg : BlockRegistry :=
  { fromName := fun s =>
      if s = "minecraft:air" then some airDesc
      else if s = "minecraft:stone" then some stoneDesc
      else none,
    fromStateId := fun i => if i = 1 then stoneDesc else airDesc }

/-- A registry entry with property variants that the registry cannot resolve
(`from_properties` panics for every combination). -/
def fancyDesc : BlockDescriptor :=
  { name := "fancy", defaultStateId := 2, statesLen := 3,
    fromPropertiesToStateId := fun _ => none, propertiesOf := fun _ => none }

/-- `testReg` extended with the `fancy` block. -/
def testReg2 : BlockRegistry :=
  { fromName := fun s =>
      if s = "minecraft:air" then some airDesc
      else if s = "minecraft:stone" then some stoneDesc
      else if s = "minecraft:fancy" then some fancyDesc
      else none,
    fromStateId := fun i => if i = 1 then stoneDesc else airDesc }

/-- Invariant of the Litematica merge accumulator: the tracked bounding box
bounds every accumulated block and its maximum is achieved on every axis. -/
def litInvP (acc : LitAcc) : Prop :=
  match acc.global_min, acc.global_max with
  | some mi, some ma =>
      (∀ b ∈ acc.all_blocks, mi.x ≤ b.1.x ∧ b.1.x ≤ ma.x ∧
        mi.y ≤ b.1.y ∧ b.1.y ≤ ma.y ∧ mi.z ≤ b.1.z ∧ b.1.z ≤ ma.z) ∧
      (∃ b ∈ acc.all_blocks, b.1.x = ma.x) ∧
      (∃ b ∈ acc.all_blocks, b.1.y = ma.y) ∧
      (∃ b ∈ acc.all_blocks, b.1.z = ma.z)
  | none, none => acc.all_blocks = []
  | _, _ => False

/-- Rust `i32` wrap-around of an unbounded integer: truncate to 32 bits and
reinterpret in two's complement.  This is the value every overflowing `i32`
addition or subtraction produces in the source (release build), so an
unbounded-integer computation agrees with the source exactly on the inputs
where it is a fixed point of this map. -/
def wrapI32 (v : Int) : Int := ofU32 (toU32 v)

/-- Componentwise membership in the box `[lo, hi]`. -/
def inBoxP (lo hi v : Vec3) : Prop :=
  lo.x ≤ v.x ∧ v.x ≤ hi.x ∧ lo.y ≤ v.y ∧ v.y ≤ hi.y ∧ lo.z ≤ v.z ∧ v.z ≤ hi.z

/-- The Litematica merge accumulator stays inside the box `[lo, hi]`: every
accumulated absolute position and the tracked global minimum lie in the box.
Used to confine the decoder's position arithmetic to the `i32`-exact domain. -/
def litBoxInv (lo hi : Vec3) (acc : LitAcc) : Prop :=
  (∀ b ∈ acc.all_blocks, inBoxP lo hi b.1) ∧
  (∀ m, acc.global_min = some m → inBoxP lo hi m)

/-! ## Lemmas: fuel elimination for the structural encoders -/

theorem encodeVarintOneAux_congr : ∀ (f g v : Nat), v < f → v < g →
    encodeVarintOneAux f v = encodeVarintOneAux g v := by
  intro f
  induction f with
  | zero => intro g v hf _; omega
  | succ f ih =>
    intro g v hf hg
    cases g with
    | zero => omega
    | succ g =>
      simp only [encodeVarintOneAux]
      by_cases h : v >>> 7 = 0
      · simp [h]
      · have hv : v >>> 7 < v := by
          simp only [Nat.shiftRight_eq_div_pow] at h ⊢
          omega
        rw [if_neg h, if_neg h, ih g (v >>> 7) (by omega) (by omega)]

/-- The fuel-free recursion of `encode_varints`' per-value loop
(schematic.rs:149-159). -/
theorem encodeVarintOne_eq (v : Nat) :
    encodeVarintOne v = if v >>> 7 = 0 then [v &&& 127]
      else ((v &&& 127) ||| 128) :: encodeVarintOne (v >>> 7) := by
  show encodeVarintOneAux (v + 1) v = _
  simp only [encodeVarintOneAux]
  by_cases h : v >>> 7 = 0
  · simp [h]
  · have hv : v >>> 7 < v := by
      simp only [Nat.shiftRight_eq_div_pow] at h ⊢
      omega
    rw [if_neg h, if_neg h,
      encodeVarintOneAux_congr v (v >>> 7 + 1) (v >>> 7) (by omega) (by omega)]
    rfl

theorem bitLenAux_congr : ∀ (f g n : Nat), n < f → n < g →
    bitLenAux f n = bitLenAux g n := by
  intro f
  induction f with
  | zero => intro g n hf _; omega
  | succ f ih =>
    intro g n hf hg
    cases g with
    | zero => omega
    | succ g =>
      simp only [bitLenAux]
      by_cases h : n = 0
      · simp [h]
      · rw [if_neg h, if_neg h, ih g (n / 2) (by omega) (by omega)]

/-- The fuel-free recursion of `bitLen`. -/
theorem bitLen_eq (n : Nat) :
    bitLen n = if n = 0 then 0 else bitLen (n / 2) + 1 := by
  show bitLenAux (n + 1) n = _
  simp only [bitLenAux]
  by_cases h : n = 0
  · simp [h]
  · rw [if_neg h, if_neg h,
      bitLenAux_congr n (n / 2 + 1) (n / 2) (by omega) (by omega)]
    rfl

/-! ## Lemmas: `bitLen` is the exact bit length -/

theorem lt_two_pow_bitLen (n : Nat) : n < 2 ^ bitLen n := by
  induction n using Nat.strong_induction_on with
  | _ n ih =>
    rw [bitLen_eq]
    by_cases h : n = 0
    · simp [h]
    · rw [if_neg h]
      have := ih (n / 2) (by omega)
      rw [pow_succ]
      omega

theorem two_pow_bitLen_le (n : Nat) (h : n ≠ 0) : 2 ^ (bitLen n - 1) ≤ n := by
  induction n using Nat.strong_induction_on with
  | _ n ih =>
    rw [bitLen_eq, if_neg h]
    by_cases h2 : n / 2 = 0
    · rw [bitLen_eq, if_pos h2]
      simpa using Nat.one_le_iff_ne_zero.2 h
    · have := ih (n / 2) (by omega) h2
      have hp : 2 ^ (bitLen (n / 2)) ≤ 2 * (n / 2) := by
        have h1 : 1 ≤ bitLen (n / 2) := by
          rw [bitLen_eq, if_neg h2]; omega
        calc 2 ^ bitLen (n / 2) = 2 * 2 ^ (bitLen (n / 2) - 1) := by
              rw [← pow_succ']
              congr 1
              omega
          _ ≤ 2 * (n / 2) := by omega
      simpa using le_trans hp (by omega)

theorem bitLen_le_iff (m k : Nat) : bitLen m ≤ k ↔ m < 2 ^ k := by
  constructor
  · intro h
    exact lt_of_lt_of_le (lt_two_pow_bitLen m) (Nat.pow_le_pow_right (by omega) h)
  · intro h
    by_contra hk
    push_neg at hk
    have hm : m ≠ 0 := by
      intro h0
      rw [h0, bitLen_eq] at hk
      simp at hk
    have := two_pow_bitLen_le m hm
    have : 2 ^ k ≤ 2 ^ (bitLen m - 1) := Nat.pow_le_pow_right (by omega) (by omega)
    omega

/-- For `n ≥ 2`, the bit length of `n - 1` is `⌈log₂ n⌉`. -/
theorem bitLen_pred_eq_clog (n : Nat) (hn : 2 ≤ n) :
    bitLen (n - 1) = Nat.clog 2 n := by
  apply le_antisymm
  · rw [bitLen_le_iff]
    have : n ≤ 2 ^ Nat.clog 2 n := (Nat.le_pow_iff_clog_le (by omega)).2 le_rfl
    omega
  · rw [← Nat.le_pow_iff_clog_le (by omega)]
    have := lt_two_pow_bitLen (n - 1)
    omega

/-- C6: `bits_for_palette_size n` equals `max 4 ⌈log₂ n⌉` for every `n ≥ 2`,
equals 4 for every `n ≤ 1`, and takes the values 4, 4, 5, 8 at 1, 16, 17, 256. -/
theorem C6_bits_for_palette_size_spec :
    (∀ n, 2 ≤ n → bits_for_palette_size n = max 4 (Nat.clog 2 n)) ∧
    (∀ n, n ≤ 1 → bits_for_palette_size n = 4) ∧
    bits_for_palette_size 1 = 4 ∧ bits_for_palette_size 16 = 4 ∧
    bits_for_palette_size 17 = 5 ∧ bits_for_palette_size 256 = 8 := by
  refine ⟨fun n hn => ?_, fun n hn => ?_, by decide, by decide, by decide, by decide⟩
  · rw [bits_for_palette_size, if_neg (by omega), bitLen_pred_eq_clog n hn,
      MIN_BITS_PER_ENTRY, Nat.max_comm]
  · rw [bits_for_palette_size, if_pos hn, MIN_BITS_PER_ENTRY]

/-- Witness for C6 at `n = 17`. -/
theorem C6_bits_for_palette_size_spec_witness :
    2 ≤ 17 ∧ bits_for_palette_size 17 = max 4 (Nat.clog 2 17) :=
  ⟨by omega, C6_bits_for_palette_size_spec.1 17 (by omega)⟩

/-! ## Lemmas: varint codec -/

theorem lor_shiftLeft_distrib (a b n : Nat) :
    (a ||| b) <<< n = (a <<< n) ||| (b <<< n) := by
  apply Nat.eq_of_testBit_eq
  intro i
  simp only [Nat.testBit_shiftLeft, Nat.testBit_lor]
  cases h : decide (i ≥ n) <;> simp

/-- The low seven bits or-ed with the remaining bits recover the value. -/
theorem split_seven_bits (u : Nat) : (u &&& 127) ||| ((u >>> 7) <<< 7) = u := by
  apply Nat.eq_of_testBit_eq
  intro i
  have h127 : (127 : Nat) = 2 ^ 7 - 1 := by norm_num
  simp only [Nat.testBit_lor, Nat.testBit_land, h127, Nat.testBit_two_pow_sub_one,
    Nat.testBit_shiftLeft, Nat.testBit_shiftRight]
  by_cases h : i < 7
  · simp [h, Nat.not_le.2 h]
  · have : 7 + (i - 7) = i := by omega
    simp [h, Nat.not_lt.2 (by omega : 7 ≤ i), this, Nat.le_of_not_lt h]

theorem and_127_lt (u : Nat) : u &&& 127 < 128 := by
  have h127 : (127 : Nat) = 2 ^ 7 - 1 := by norm_num
  rw [h127, Nat.and_pow_two_sub_one_eq_mod]
  omega

theorem and_127_eq_self (u : Nat) (h : u < 128) : u &&& 127 = u := by
  have h127 : (127 : Nat) = 2 ^ 7 - 1 := by norm_num
  rw [h127, Nat.and_pow_two_sub_one_eq_mod]
  omega

theorem and_127_and_128 (u : Nat) : (u &&& 127) &&& 128 = 0 := by
  rw [Nat.and_assoc, (by decide : (127 : Nat) &&& 128 = 0), Nat.and_zero]

theorem lor_128_and_128_ne (u : Nat) : (u ||| 128) &&& 128 ≠ 0 := by
  intro hzero
  have h7 := Nat.testBit_land (u ||| 128) 128 7
  rw [hzero] at h7
  simp only [Nat.testBit_lor] at h7
  have h128 : (128 : Nat) = 2 ^ 7 := by norm_num
  rw [h128, Nat.testBit_two_pow_self] at h7
  simp at h7

theorem lor_128_and_127 (u : Nat) : ((u &&& 127) ||| 128) &&& 127 = u &&& 127 := by
  apply Nat.eq_of_testBit_eq
  intro i
  have h127 : (127 : Nat) = 2 ^ 7 - 1 := by norm_num
  have h128 : (128 : Nat) = 2 ^ 7 := by norm_num
  simp only [Nat.testBit_land, Nat.testBit_lor, h127, h128,
    Nat.testBit_two_pow_sub_one, Nat.testBit_two_pow]
  by_cases h : i < 7
  · simp [h]
    exact fun heq => absurd heq (by omega)
  · simp [h]

theorem shiftRight7_eq_zero_iff (u : Nat) : u >>> 7 = 0 ↔ u < 128 := by
  rw [Nat.shiftRight_eq_div_pow]
  omega

theorem shiftRight7_lt (u : Nat) (h : u ≠ 0) : u >>> 7 < u := by
  rw [Nat.shiftRight_eq_div_pow]
  omega

theorem encodeVarintOne_ne_nil (u : Nat) : encodeVarintOne u ≠ [] := by
  rw [encodeVarintOne_eq]
  by_cases h : u >>> 7 = 0 <;> simp [h]

/-- Bytes produced by the encoder are bytes (`< 256`). -/
theorem encodeVarintOne_lt_256 (u : Nat) : ∀ b ∈ encodeVarintOne u, b < 256 := by
  induction u using Nat.strong_induction_on with
  | _ u ih =>
    rw [encodeVarintOne_eq]
    by_cases h : u >>> 7 = 0
    · simp only [h, if_pos]
      intro b hb
      simp at hb
      subst hb
      have := and_127_lt u
      omega
    · have hv : u >>> 7 < u := by
        simp only [Nat.shiftRight_eq_div_pow] at h ⊢
        omega
      simp only [h, if_neg, ite_false]
      intro b hb
      rcases List.mem_cons.1 hb with hb | hb
      · subst hb
        have h1 : u &&& 127 < 2 ^ 8 := lt_trans (and_127_lt u) (by norm_num)
        have h2 : (128 : Nat) < 2 ^ 8 := by norm_num
        have h3 := Nat.bitwise_lt_two_pow (x := u &&& 127) (n := 8) (y := 128)
          (f := or) h1 h2
        simpa [Nat.lor] using h3
      · exact ih (u >>> 7) hv b hb

/-- The varint group count is minimal: `log₁₂₈ u + 1` groups, one even for 0. -/
theorem encodeVarintOne_length (u : Nat) :
    (encodeVarintOne u).length = Nat.log 128 u + 1 := by
  induction u using Nat.strong_induction_on with
  | _ u ih =>
    rw [encodeVarintOne_eq]
    by_cases h : u >>> 7 = 0
    · have hu : u < 128 := (shiftRight7_eq_zero_iff u).1 h
      have : Nat.log 128 u = 0 := Nat.log_eq_zero_iff.2 (Or.inl hu)
      simp [h, this]
    · have hu : 128 ≤ u := by
        by_contra hc
        exact h ((shiftRight7_eq_zero_iff u).2 (by omega))
      have hv : u >>> 7 < u := shiftRight7_lt u (by omega)
      rw [if_neg h, List.length_cons, ih (u >>> 7) hv]
      have hdiv : u >>> 7 = u / 128 := by
        rw [Nat.shiftRight_eq_div_pow]
      rw [hdiv, Nat.log_div_base]
      have := Nat.log_pos (by norm_num : (1:Nat) < 128) hu
      omega

/-- Fuel bound: a value below `2^(7k+7)` takes at most `k+1` groups. -/
theorem encodeVarintOne_length_le : ∀ (k u : Nat), u < 2 ^ (7 * k + 7) →
    (encodeVarintOne u).length ≤ k + 1 := by
  intro k
  induction k with
  | zero =>
    intro u hu
    rw [encodeVarintOne_eq]
    have h : u >>> 7 = 0 := by
      simp only [Nat.shiftRight_eq_div_pow]
      norm_num at hu ⊢
      omega
    simp [h]
  | succ k ih =>
    intro u hu
    rw [encodeVarintOne_eq]
    by_cases h : u >>> 7 = 0
    · simp [h]
    · have hrec : u >>> 7 < 2 ^ (7 * k + 7) := by
        simp only [Nat.shiftRight_eq_div_pow]
        have : u < 2 ^ 7 * 2 ^ (7 * k + 7) := by
          rw [← pow_add]
          calc u < 2 ^ (7 * (k + 1) + 7) := hu
            _ ≤ 2 ^ (7 + (7 * k + 7)) := by
                apply Nat.pow_le_pow_right (by omega)
                omega
        rw [Nat.div_lt_iff_lt_mul (by norm_num)]
        omega
      simp only [h, if_neg, ite_false, List.length_cons]
      have := ih (u >>> 7) hrec
      omega

/-- The core decode/encode inverse law for one value: decoding the groups of
`u` or-s `u <<< off` into the accumulator and strips exactly the groups. -/
theorem decodeVarintOne_encodeVarintOne (u : Nat) :
    ∀ (rest : List Nat) (value off : Nat),
      off + 7 * ((encodeVarintOne u).length - 1) < 35 →
      decodeVarintOne (encodeVarintOne u ++ rest) value off =
        .ok (ofU32 ((value ||| (u <<< off)) % 4294967296), rest) := by
  induction u using Nat.strong_induction_on with
  | _ u ih =>
    intro rest value off hoff
    rw [encodeVarintOne_eq]
    by_cases h : u >>> 7 = 0
    · have hu : u < 128 := (shiftRight7_eq_zero_iff u).1 h
      rw [if_pos h, List.cons_append, List.nil_append, decodeVarintOne]
      rw [if_pos (and_127_and_128 u),
        and_127_eq_self (u &&& 127) (and_127_lt u), and_127_eq_self u hu]
    · have hv : u >>> 7 < u := shiftRight7_lt u (by
        intro h0
        exact h (by rw [h0]; rfl))
      have hlen : (encodeVarintOne u).length =
          (encodeVarintOne (u >>> 7)).length + 1 := by
        rw [encodeVarintOne_eq]
        simp [h]
      have hlen1 : 1 ≤ (encodeVarintOne (u >>> 7)).length := by
        cases hh : encodeVarintOne (u >>> 7) with
        | nil => exact absurd hh (encodeVarintOne_ne_nil _)
        | cons a l => simp
      rw [if_neg h, List.cons_append, decodeVarintOne]
      rw [if_neg (lor_128_and_128_ne (u &&& 127)),
        if_neg (by omega : ¬ 35 ≤ off + 7), lor_128_and_127 u,
        ih (u >>> 7) hv rest (value ||| ((u &&& 127) <<< off)) (off + 7)
          (by omega)]
      have key : (value ||| (u &&& 127) <<< off) ||| (u >>> 7) <<< (off + 7)
          = value ||| u <<< off := by
        conv_rhs => rw [← split_seven_bits u]
        rw [lor_shiftLeft_distrib, Nat.lor_assoc]
        congr 1
      rw [key]

theorem toU32_lt (x : Int) : toU32 x < 4294967296 := by
  rw [toU32]
  omega

theorem ofU32_toU32 (x : Int) (h1 : -2147483648 ≤ x) (h2 : x < 2147483648) :
    ofU32 (toU32 x) = x := by
  rw [toU32, ofU32]
  split <;> omega

/-- One step of the decoder's outer loop on a nonempty byte list. -/
theorem decodeVarintsLoop_cons (b : Nat) (rest : List Nat) (needed : Nat) :
    decodeVarintsLoop (b :: rest) (needed + 1) =
      match decodeVarintOne (b :: rest) 0 0 with
      | .error e => .error e
      | .ok (v, remaining) =>
        match decodeVarintsLoop remaining needed with
        | .error e => .error e
        | .ok vs => .ok (v :: vs) := rfl

/-- Round trip of the varint codec on `i32` sequences. -/
theorem decode_encode_varints (v : List Int)
    (h : ∀ x ∈ v, -2147483648 ≤ x ∧ x < 2147483648) :
    decode_varints (encode_varints v) v.length = .ok v := by
  induction v with
  | nil => rfl
  | cons x xs ih =>
    have hx := h x (by simp)
    have hxs : ∀ y ∈ xs, -2147483648 ≤ y ∧ y < 2147483648 :=
      fun y hy => h y (List.mem_cons_of_mem _ hy)
    show decodeVarintsLoop (encode_varints (x :: xs)) (xs.length + 1) = .ok (x :: xs)
    have henc : encode_varints (x :: xs) =
        encodeVarintOne (toU32 x) ++ encode_varints xs := by
      simp [encode_varints]
    cases hb : encodeVarintOne (toU32 x) with
    | nil => exact absurd hb (encodeVarintOne_ne_nil _)
    | cons b bs =>
      have hone := decodeVarintOne_encodeVarintOne (toU32 x) (encode_varints xs) 0 0
        (by
          have h5 : (encodeVarintOne (toU32 x)).length ≤ 5 :=
            encodeVarintOne_length_le 4 (toU32 x)
              (lt_trans (toU32_lt x) (by norm_num))
          omega)
      rw [hb] at hone
      rw [henc, hb, List.cons_append, decodeVarintsLoop_cons, ← List.cons_append, hone]
      have : ofU32 ((0 ||| (toU32 x <<< 0)) % 4294967296) = x := by
        rw [Nat.shiftLeft_zero]
        have h0 : (0 : Nat) ||| toU32 x = toU32 x := by
          apply Nat.eq_of_testBit_eq
          intro i
          simp [Nat.testBit_lor]
        rw [h0, Nat.mod_eq_of_lt (toU32_lt x), ofU32_toU32 x hx.1 hx.2]
      rw [this]
      have ihx : decodeVarintsLoop (encode_varints xs) xs.length = Except.ok xs :=
        ih hxs
      simp [ihx]

/-- The decoder never produces more than `expected_count` values. -/
theorem decodeVarintsLoop_length : ∀ (needed : Nat) (data : List Nat) (l : List Int),
    decodeVarintsLoop data needed = .ok l → l.length ≤ needed := by
  intro needed
  induction needed with
  | zero =>
    intro data l h
    have hl : l = [] := by
      cases data <;> exact (Except.ok.inj h).symm
    simp [hl]
  | succ n ih =>
    intro data l h
    cases data with
    | nil =>
      have hl : l = [] := (Except.ok.inj h).symm
      simp [hl]
    | cons b rest =>
      rw [decodeVarintsLoop_cons] at h
      split at h
      · exact absurd h (by simp)
      · split at h
        · exact absurd h (by simp)
        · rw [← Except.ok.inj h, List.length_cons]
          have := ih _ _ (by assumption)
          omega

/-- C7: `decode_varints (encode_varints v) v.length = ok v` for every list of
`i32` values; each value's varint uses the minimal `log₁₂₈ u + 1` groups (at
least one, even for zero); and every `u32` bit pattern fits in the 5-group /
35-bit limit. -/
theorem C7_varint_roundtrip :
    (∀ v : List Int, (∀ x ∈ v, -2147483648 ≤ x ∧ x < 2147483648) →
      decode_varints (encode_varints v) v.length = .ok v) ∧
    (∀ u : Nat, (encodeVarintOne u).length = Nat.log 128 u + 1) ∧
    (∀ u : Nat, u < 4294967296 → (encodeVarintOne u).length ≤ 5) :=
  ⟨decode_encode_varints, encodeVarintOne_length,
    fun u hu => encodeVarintOne_length_le 4 u (lt_trans hu (by norm_num))⟩

/-- Witness for C7 on the spec's test vector (plus a negative value). -/
theorem C7_varint_roundtrip_witness :
    decode_varints (encode_varints [0, 127, 128, 16384, 2147483647, -1])
        [0, 127, 128, 16384, 2147483647, -1].length =
      .ok [0, 127, 128, 16384, 2147483647, -1] ∧
    (encodeVarintOne 300).length = Nat.log 128 300 + 1 ∧
    (encodeVarintOne 4294967295).length ≤ 5 :=
  ⟨C7_varint_roundtrip.1 _ (by decide),
    C7_varint_roundtrip.2.1 300,
    C7_varint_roundtrip.2.2 4294967295 (by decide)⟩

/-! ## Lemmas: varint error behaviour (C8, C5) -/

/-- If every remaining byte has the continuation bit set and too few bytes
remain to trip the 35-bit guard, the inner loop runs off the end of the data. -/
theorem decodeVarintOne_exhaust : ∀ (bytes : List Nat) (value off : Nat),
    bytes ≠ [] → (∀ b ∈ bytes, b &&& 128 ≠ 0) → off + 7 * bytes.length ≤ 34 →
    decodeVarintOne bytes value off = .error "Unexpected end of varint data" := by
  intro bytes
  induction bytes with
  | nil => intro value off hne _ _; exact absurd rfl hne
  | cons b rest ih =>
    intro value off _ hcont hoff
    simp only [List.length_cons] at hoff
    rw [decodeVarintOne, if_neg (hcont b (by simp)),
      if_neg (by omega : ¬ 35 ≤ off + 7)]
    cases rest with
    | nil => rfl
    | cons c rest2 =>
      exact ih _ _ (by simp) (fun x hx => hcont x (by simp [hx]))
        (by simp only [List.length_cons] at hoff ⊢; omega)

/-- Five consecutive continuation bits exhaust the 35-bit budget. -/
theorem decodeVarintOne_too_large (b1 b2 b3 b4 b5 : Nat) (rest : List Nat)
    (h1 : b1 &&& 128 ≠ 0) (h2 : b2 &&& 128 ≠ 0) (h3 : b3 &&& 128 ≠ 0)
    (h4 : b4 &&& 128 ≠ 0) (h5 : b5 &&& 128 ≠ 0) :
    decodeVarintOne (b1 :: b2 :: b3 :: b4 :: b5 :: rest) 0 0 =
      .error "Varint too large" := by
  rw [decodeVarintOne, if_neg h1, if_neg (by norm_num : ¬ (35:Nat) ≤ 0 + 7)]
  rw [decodeVarintOne, if_neg h2, if_neg (by norm_num : ¬ (35:Nat) ≤ 0 + 7 + 7)]
  rw [decodeVarintOne, if_neg h3, if_neg (by norm_num : ¬ (35:Nat) ≤ 0 + 7 + 7 + 7)]
  rw [decodeVarintOne, if_neg h4, if_neg (by norm_num : ¬ (35:Nat) ≤ 0 + 7 + 7 + 7 + 7)]
  rw [decodeVarintOne, if_neg h5, if_pos (by norm_num : (35:Nat) ≤ 0 + 7 + 7 + 7 + 7 + 7)]

/-- A value of exactly five groups whose fifth byte clears the continuation
bit is accepted (the loop breaks before the 35-bit check). -/
theorem decodeVarintOne_five_groups_ok (b1 b2 b3 b4 b5 : Nat) (rest : List Nat)
    (h1 : b1 &&& 128 ≠ 0) (h2 : b2 &&& 128 ≠ 0) (h3 : b3 &&& 128 ≠ 0)
    (h4 : b4 &&& 128 ≠ 0) (h5 : b5 &&& 128 = 0) :
    decodeVarintOne (b1 :: b2 :: b3 :: b4 :: b5 :: rest) 0 0 =
      .ok (ofU32 ((0 ||| (b1 &&& 127) <<< 0 ||| (b2 &&& 127) <<< 7 |||
        (b3 &&& 127) <<< 14 ||| (b4 &&& 127) <<< 21 |||
        (b5 &&& 127) <<< 28) % 4294967296), rest) := by
  rw [decodeVarintOne, if_neg h1, if_neg (by norm_num : ¬ (35:Nat) ≤ 0 + 7)]
  rw [decodeVarintOne, if_neg h2, if_neg (by norm_num : ¬ (35:Nat) ≤ 0 + 7 + 7)]
  rw [decodeVarintOne, if_neg h3, if_neg (by norm_num : ¬ (35:Nat) ≤ 0 + 7 + 7 + 7)]
  rw [decodeVarintOne, if_neg h4, if_neg (by norm_num : ¬ (35:Nat) ≤ 0 + 7 + 7 + 7 + 7)]
  rw [decodeVarintOne, if_pos h5]

/-- C8: `decode_varints` fails with `"Unexpected end of varint data"` when the
bytes run out mid-value (every consumed byte still has the continuation bit
set), fails with `"Varint too large"` when a single value carries a
continuation bit past 35 accumulated bits, and accepts a value of exactly five
groups whose fifth byte clears the continuation bit. -/
theorem C8_decode_varints_error_conditions :
    (∀ (bytes : List Nat) (n : Nat), bytes ≠ [] → bytes.length ≤ 4 →
      (∀ b ∈ bytes, b &&& 128 ≠ 0) →
      decode_varints bytes (n + 1) = .error "Unexpected end of varint data") ∧
    (∀ (b1 b2 b3 b4 b5 : Nat) (rest : List Nat) (n : Nat),
      b1 &&& 128 ≠ 0 → b2 &&& 128 ≠ 0 → b3 &&& 128 ≠ 0 → b4 &&& 128 ≠ 0 →
      b5 &&& 128 ≠ 0 →
      decode_varints (b1 :: b2 :: b3 :: b4 :: b5 :: rest) (n + 1) =
        .error "Varint too large") ∧
    (∀ (b1 b2 b3 b4 b5 : Nat),
      b1 &&& 128 ≠ 0 → b2 &&& 128 ≠ 0 → b3 &&& 128 ≠ 0 → b4 &&& 128 ≠ 0 →
      b5 &&& 128 = 0 →
      ∃ v, decode_varints [b1, b2, b3, b4, b5] 1 = .ok [v]) := by
  refine ⟨?_, ?_, ?_⟩
  · intro bytes n hne hlen hcont
    cases bytes with
    | nil => exact absurd rfl hne
    | cons b rest =>
      show decodeVarintsLoop (b :: rest) (n + 1) = _
      rw [decodeVarintsLoop_cons,
        decodeVarintOne_exhaust (b :: rest) 0 0 (by simp) hcont
          (by simp only [List.length_cons] at hlen ⊢; omega)]
  · intro b1 b2 b3 b4 b5 rest n h1 h2 h3 h4 h5
    show decodeVarintsLoop _ (n + 1) = _
    rw [decodeVarintsLoop_cons,
      decodeVarintOne_too_large b1 b2 b3 b4 b5 rest h1 h2 h3 h4 h5]
  · intro b1 b2 b3 b4 b5 h1 h2 h3 h4 h5
    refine ⟨ofU32 ((0 ||| (b1 &&& 127) <<< 0 ||| (b2 &&& 127) <<< 7 |||
      (b3 &&& 127) <<< 14 ||| (b4 &&& 127) <<< 21 |||
      (b5 &&& 127) <<< 28) % 4294967296), ?_⟩
    show decodeVarintsLoop _ 1 = _
    rw [decodeVarintsLoop_cons,
      decodeVarintOne_five_groups_ok b1 b2 b3 b4 b5 [] h1 h2 h3 h4 h5]
    rfl

/-- Witness for C8: a two-byte truncated stream, five continuation bytes, and
the accepted five-group value `0xFF 0xFF 0xFF 0xFF 0x0F`. -/
theorem C8_decode_varints_error_conditions_witness :
    decode_varints [255, 255] 1 = .error "Unexpected end of varint data" ∧
    decode_varints [255, 255, 255, 255, 255] 1 = .error "Varint too large" ∧
    ∃ v, decode_varints [255, 255, 255, 255, 15] 1 = .ok [v] :=
  ⟨C8_decode_varints_error_conditions.1 [255, 255] 0 (by decide) (by decide)
      (by decide),
    C8_decode_varints_error_conditions.2.1 255 255 255 255 255 [] 0 (by decide)
      (by decide) (by decide) (by decide) (by decide),
    C8_decode_varints_error_conditions.2.2 255 255 255 255 15 (by decide)
      (by decide) (by decide) (by decide) (by decide)⟩

/-! ## Lemmas: count mismatch (C5) -/

/-- C5: when the decoded index count differs from `Width*Height*Length`, the
loader fails with the count-mismatch error; the varint decoder never produces
more than the requested count; and a successful load implies the decoded count
equals `Width*Height*Length` exactly. -/
theorem C5_block_count_mismatch :
    (∀ (reg : BlockRegistry) (w h l : Nat) (off : Vec3)
        (pal : List (String × Int)) (data : List Nat) (idxs : List Int),
      decode_varints data (w * h * l) = .ok idxs → idxs.length ≠ w * h * l →
      loadSchematicCore reg w h l off pal data =
        .error ("Block data count mismatch: expected " ++ toString (w * h * l) ++
          ", got " ++ toString idxs.length)) ∧
    (∀ (data : List Nat) (n : Nat) (lst : List Int),
      decode_varints data n = .ok lst → lst.length ≤ n) ∧
    (∀ (reg : BlockRegistry) (w h l : Nat) (off : Vec3)
        (pal : List (String × Int)) (data : List Nat) (bs : SchematicData),
      loadSchematicCore reg w h l off pal data = .ok bs →
      ∃ idxs, decode_varints data (w * h * l) = .ok idxs ∧
        idxs.length = w * h * l) := by
  refine ⟨?_, ?_, ?_⟩
  · intro reg w h l off pal data idxs hdec hne
    simp only [loadSchematicCore, hdec]
    rw [if_pos hne]
  · intro data n lst hdec
    exact decodeVarintsLoop_length n data lst hdec
  · intro reg w h l off pal data bs hok
    cases hdec : decode_varints data (w * h * l) with
    | error e => simp [loadSchematicCore, hdec] at hok
    | ok idxs =>
      by_cases hlen : idxs.length = w * h * l
      · exact ⟨idxs, rfl, hlen⟩
      · simp [loadSchematicCore, hdec, hlen] at hok

/-- Witness for C5: a declared `1*1*2` grid whose data holds a single index. -/
theorem C5_block_count_mismatch_witness :
    loadSchematicCore testReg 1 1 2 ⟨0, 0, 0⟩ [] [0] =
      .error ("Block data count mismatch: expected " ++ toString (1 * 1 * 2) ++
        ", got " ++ toString ([(0 : Int)].length)) :=
  C5_block_count_mismatch.1 testReg 1 1 2 ⟨0, 0, 0⟩ [] [0] [0] rfl (by decide)

/-! ## Lemmas: single-region decode -/

/-- Successful load, inverted: the decoded index list matches the declared
count and the result is the block-collecting loop's output. -/
theorem loadSchematicCore_ok_inv {reg : BlockRegistry} {w h l : Nat} {off : Vec3}
    {pal : List (String × Int)} {data : List Nat} {bs : SchematicData}
    (hok : loadSchematicCore reg w h l off pal data = .ok bs) :
    ∃ idxs, decode_varints data (w * h * l) = .ok idxs ∧
      idxs.length = w * h * l ∧
      bs = { width := w, height := h, length := l, offset := off,
             blocks := schemBlocksOf reg pal w l off (airStateId reg) idxs } := by
  cases hdec : decode_varints data (w * h * l) with
  | error e => simp [loadSchematicCore, hdec] at hok
  | ok idxs =>
    by_cases hlen : idxs.length = w * h * l
    · refine ⟨idxs, rfl, hlen, ?_⟩
      simp only [loadSchematicCore, hdec] at hok
      rw [if_neg (by simp [hlen])] at hok
      exact (Except.ok.inj hok).symm
    · simp [loadSchematicCore, hdec, hlen] at hok

/-- Membership in the decoder's block list, forward direction. -/
theorem schemBlocksOf_mem {reg : BlockRegistry} {pal : List (String × Int)}
    {w l : Nat} {off : Vec3} {air : Nat} {idxs : List Int} {pr : Vec3 × Nat}
    (hpr : pr ∈ schemBlocksOf reg pal w l off air idxs) :
    ∃ i pi, (i, pi) ∈ idxs.enum ∧
      schemStateIdOf reg pal air pi ≠ air ∧
      pr = (⟨((schemCoords w l i).1 : Int) + off.x,
            ((schemCoords w l i).2.1 : Int) + off.y,
            ((schemCoords w l i).2.2 : Int) + off.z⟩,
            schemStateIdOf reg pal air pi) := by
  rw [schemBlocksOf] at hpr
  obtain ⟨⟨i, pi⟩, ha, hfa⟩ := List.mem_filterMap.1 hpr
  split at hfa
  · exact ⟨i, pi, ha, by assumption, (Option.some.inj hfa).symm⟩
  · exact absurd hfa (by simp)

/-- Decoded entries are never air (schematic.rs:341). -/
theorem schemBlocksOf_state_ne_air {reg : BlockRegistry}
    {pal : List (String × Int)} {w l : Nat} {off : Vec3} {air : Nat}
    {idxs : List Int} {pr : Vec3 × Nat}
    (hpr : pr ∈ schemBlocksOf reg pal w l off air idxs) : pr.2 ≠ air := by
  obtain ⟨i, pi, _, hne, heq⟩ := schemBlocksOf_mem hpr
  rw [heq]
  exact hne

/-- C3: the single-region decoder maps flat index `i` to `x = i % w`,
`z = (i / w) % l`, `y = i / (w*l)`, and on the spec's concrete 2×1×2 grid with
palette `{air ↦ 0, stone ↦ 1}`, zero offset and data `[1,0,0,1]` produces
exactly the two stone blocks at `(0,0,0)` and `(1,0,1)` (air omitted, offset
added). -/
theorem C3_single_region_decode :
    (∀ (w l i : Nat), 0 < w → 0 < l →
      schemCoords w l i = (i % w, i / (w * l), (i / w) % l)) ∧
    loadSchematicCore testReg 2 1 2 ⟨0, 0, 0⟩
      [("minecraft:air", 0), ("minecraft:stone", 1)] [1, 0, 0, 1] =
      .ok { width := 2, height := 1, length := 2, offset := ⟨0, 0, 0⟩,
            blocks := [(⟨0, 0, 0⟩, 1), (⟨1, 0, 1⟩, 1)] } := by
  refine ⟨fun w l i hw hl => ?_, rfl⟩
  rw [schemCoords]
  refine Prod.ext ?_ (Prod.ext rfl ?_)
  · exact Nat.mod_mod_of_dvd i ⟨l, rfl⟩
  · exact Nat.mod_mul_right_div_self i w l

/-- Witness for C3's coordinate formulas at `w = 2`, `l = 2`, `i = 7`. -/
theorem C3_single_region_decode_witness :
    schemCoords 2 2 7 = (7 % 2, 7 / (2 * 2), (7 / 2) % 2) :=
  C3_single_region_decode.1 2 2 7 (by omega) (by omega)

/-! ## C9: soft degradation of unresolvable states -/

/-- C9: an unknown palette index or unresolvable state string never fails the
decode — the load succeeds whenever the index count matches (regardless of the
palette or registry content), the affected position's state degrades to air
(first two conjuncts after that), decoded output never contains air (so such
positions are omitted), and an unresolvable property combination falls back to
the block's default state inside `resolve_block_state`. -/
theorem C9_soft_degradation :
    (∀ (reg : BlockRegistry) (w h l : Nat) (off : Vec3)
        (pal : List (String × Int)) (data : List Nat) (idxs : List Int),
      decode_varints data (w * h * l) = .ok idxs → idxs.length = w * h * l →
      ∃ bs, loadSchematicCore reg w h l off pal data = .ok bs) ∧
    (∀ (reg : BlockRegistry) (pal : List (String × Int)) (air : Nat) (pi : Int),
      paletteMapGet pal pi = none → schemStateIdOf reg pal air pi = air) ∧
    (∀ (reg : BlockRegistry) (pal : List (String × Int)) (air : Nat) (pi : Int)
        (s : String),
      paletteMapGet pal pi = some s → resolve_block_state reg s = none →
      schemStateIdOf reg pal air pi = air) ∧
    (∀ (reg : BlockRegistry) (pal : List (String × Int)) (w l : Nat)
        (off : Vec3) (air : Nat) (idxs : List Int) (pr : Vec3 × Nat),
      pr ∈ schemBlocksOf reg pal w l off air idxs → pr.2 ≠ air) ∧
    (∀ (reg : BlockRegistry) (s : String) (block : BlockDescriptor),
      reg.fromName (parse_block_state_string s).1 = some block →
      ¬ ((parse_block_state_string s).2.isEmpty ∨ block.statesLen ≤ 1) →
      block.fromPropertiesToStateId (parse_block_state_string s).2 = none →
      resolve_block_state reg s = some block.defaultStateId) := by
  refine ⟨?_, ?_, ?_, ?_, ?_⟩
  · intro reg w h l off pal data idxs hdec hlen
    refine ⟨{ width := w, height := h, length := l, offset := off,
              blocks := schemBlocksOf reg pal w l off (airStateId reg) idxs }, ?_⟩
    simp only [loadSchematicCore, hdec]
    rw [if_neg (by simp [hlen])]
  · intro reg pal air pi hnone
    rw [schemStateIdOf, hnone]
  · intro reg pal air pi s hsome hres
    simp only [schemStateIdOf, hsome, hres]
  · intro reg pal w l off air idxs pr hpr
    exact schemBlocksOf_state_ne_air hpr
  · intro reg s block hname hprops hfail
    rw [resolve_block_state, hname]
    simp only [if_neg hprops, hfail]

/-- Witness for C9: an empty palette decodes successfully to an all-air (thus
empty) document; index 0 degrades to air; `minecraft:fancy[facing=north]`
falls back to the default state. -/
theorem C9_soft_degradation_witness :
    (∃ bs, loadSchematicCore testReg 1 1 1 ⟨0, 0, 0⟩ [] [0] = .ok bs) ∧
    schemStateIdOf testReg [] 0 0 = 0 ∧
    schemStateIdOf testReg [("minecraft:zombie", 0)] 0 0 = 0 ∧
    resolve_block_state testReg2 "minecraft:fancy[facing=north]" = some 2 :=
  ⟨C9_soft_degradation.1 testReg 1 1 1 ⟨0, 0, 0⟩ [] [0] [0] rfl (by decide),
    C9_soft_degradation.2.1 testReg [] 0 0 (by decide),
    C9_soft_degradation.2.2.1 testReg [("minecraft:zombie", 0)] 0 0
      "minecraft:zombie" (by decide) (by decide),
    C9_soft_degradation.2.2.2.2 testReg2 "minecraft:fancy[facing=north]"
      fancyDesc rfl (by decide) rfl⟩

/-! ## C10: save does not validate 16-bit dimensions -/

/-- C10: `save_schematic` never validates the bounding box: for every
non-empty clipboard it succeeds, and the stored `Width/Height/Length` are the
extents `max - min + 1` reduced mod `2^16` (`toU16`), even when an extent
exceeds 65535. -/
theorem C10_save_wraps_dimensions :
    ∀ (reg : BlockRegistry) (b0 : Vec3 × Nat) (rest : List (Vec3 × Nat)),
      ∃ f, saveSchematicCore reg ⟨b0 :: rest⟩ = .ok f ∧
        f.width = toU16 ((clipBounds (b0 :: rest) b0.1).2.x -
          (clipBounds (b0 :: rest) b0.1).1.x + 1) ∧
        f.height = toU16 ((clipBounds (b0 :: rest) b0.1).2.y -
          (clipBounds (b0 :: rest) b0.1).1.y + 1) ∧
        f.length = toU16 ((clipBounds (b0 :: rest) b0.1).2.z -
          (clipBounds (b0 :: rest) b0.1).1.z + 1) := by
  intro reg b0 rest
  exact ⟨_, rfl, rfl, rfl, rfl⟩

/-- Witness for C10: a clipboard spanning 65537 cells on the x axis is saved
successfully with a wrapped stored width (here `65537 % 65536 = 1`). -/
theorem C10_save_wraps_dimensions_witness :
    ∃ f, saveSchematicCore testReg ⟨[(⟨0, 0, 0⟩, 1), (⟨65536, 0, 0⟩, 1)]⟩ = .ok f ∧
      f.width = toU16 ((clipBounds [(⟨0, 0, 0⟩, 1), (⟨65536, 0, 0⟩, 1)] ⟨0, 0, 0⟩).2.x -
        (clipBounds [(⟨0, 0, 0⟩, 1), (⟨65536, 0, 0⟩, 1)] ⟨0, 0, 0⟩).1.x + 1) ∧
      f.height = toU16 ((clipBounds [(⟨0, 0, 0⟩, 1), (⟨65536, 0, 0⟩, 1)] ⟨0, 0, 0⟩).2.y -
        (clipBounds [(⟨0, 0, 0⟩, 1), (⟨65536, 0, 0⟩, 1)] ⟨0, 0, 0⟩).1.y + 1) ∧
      f.length = toU16 ((clipBounds [(⟨0, 0, 0⟩, 1), (⟨65536, 0, 0⟩, 1)] ⟨0, 0, 0⟩).2.z -
        (clipBounds [(⟨0, 0, 0⟩, 1), (⟨65536, 0, 0⟩, 1)] ⟨0, 0, 0⟩).1.z + 1) :=
  C10_save_wraps_dimensions testReg (⟨0, 0, 0⟩, 1) [(⟨65536, 0, 0⟩, 1)]

/-! ## C4: Litematica negative-size base coordinate -/

/-- C4: the per-axis base coordinate of a Litematica region is
`position + size + 1` for a negative size component and `position` otherwise;
in particular one region at position `(5,0,5)` of size `(-2,1,-2)` whose
packed data holds stone at local index 0 decodes to a single block whose
absolute position (`offset + relative`) is `(4,0,4)`. -/
theorem C4_litematic_region_base :
    (∀ pos size : Int,
      (size < 0 → litBase pos size = pos + size + 1) ∧
      (0 ≤ size → litBase pos size = pos)) ∧
    loadLitematicCore testReg
      [{ pos := ⟨5, 0, 5⟩, size := ⟨-2, 1, -2⟩,
         palette := [("minecraft:air", 0), ("minecraft:stone", 1)],
         blockStates := [1] }] =
      .ok { width := 1, height := 1, length := 1, offset := ⟨4, 0, 4⟩,
            blocks := [(⟨0, 0, 0⟩, 1)] } := by
  refine ⟨fun pos size => ⟨fun hneg => ?_, fun hpos => ?_⟩, rfl⟩
  · rw [litBase, if_neg (by omega)]
  · rw [litBase, if_pos hpos]

/-- Witness for C4's base-coordinate formulas at `pos = 5`, `size = -2`. -/
theorem C4_litematic_region_base_witness :
    litBase 5 (-2) = 5 + -2 + 1 ∧ litBase 5 2 = 5 :=
  ⟨(C4_litematic_region_base.1 5 (-2)).1 (by omega),
    (C4_litematic_region_base.1 5 2).2 (by omega)⟩

/-! ## Lemmas: Litematica bounding-box invariant (C2) -/

/-- Appending one block and extending the box componentwise preserves the
bound-and-achieved property. -/
theorem box_extend (blocks : List (Vec3 × Nat)) (mi ma : Vec3) (v : Vec3 × Nat)
    (hbound : ∀ b ∈ blocks, mi.x ≤ b.1.x ∧ b.1.x ≤ ma.x ∧ mi.y ≤ b.1.y ∧
      b.1.y ≤ ma.y ∧ mi.z ≤ b.1.z ∧ b.1.z ≤ ma.z)
    (hax : ∃ b ∈ blocks, b.1.x = ma.x) (hay : ∃ b ∈ blocks, b.1.y = ma.y)
    (haz : ∃ b ∈ blocks, b.1.z = ma.z) :
    (∀ b ∈ blocks ++ [v], min mi.x v.1.x ≤ b.1.x ∧ b.1.x ≤ max ma.x v.1.x ∧
      min mi.y v.1.y ≤ b.1.y ∧ b.1.y ≤ max ma.y v.1.y ∧
      min mi.z v.1.z ≤ b.1.z ∧ b.1.z ≤ max ma.z v.1.z) ∧
    (∃ b ∈ blocks ++ [v], b.1.x = max ma.x v.1.x) ∧
    (∃ b ∈ blocks ++ [v], b.1.y = max ma.y v.1.y) ∧
    (∃ b ∈ blocks ++ [v], b.1.z = max ma.z v.1.z) := by
  obtain ⟨bx, hbx, hbxe⟩ := hax
  obtain ⟨by', hby, hbye⟩ := hay
  obtain ⟨bz, hbz, hbze⟩ := haz
  refine ⟨?_, ?_, ?_, ?_⟩
  · intro b hb
    rcases List.mem_append.1 hb with hb | hb
    · have := hbound b hb
      refine ⟨?_, ?_, ?_, ?_, ?_, ?_⟩ <;> omega
    · rw [List.mem_singleton.1 hb]
      refine ⟨?_, ?_, ?_, ?_, ?_, ?_⟩ <;> omega
  · by_cases hc : ma.x ≤ v.1.x
    · exact ⟨v, List.mem_append.2 (Or.inr (by simp)), by omega⟩
    · exact ⟨bx, List.mem_append.2 (Or.inl hbx), by omega⟩
  · by_cases hc : ma.y ≤ v.1.y
    · exact ⟨v, List.mem_append.2 (Or.inr (by simp)), by omega⟩
    · exact ⟨by', List.mem_append.2 (Or.inl hby), by omega⟩
  · by_cases hc : ma.z ≤ v.1.z
    · exact ⟨v, List.mem_append.2 (Or.inr (by simp)), by omega⟩
    · exact ⟨bz, List.mem_append.2 (Or.inl hbz), by omega⟩

theorem litCellStep_inv (reg : BlockRegistry) (air : Nat) (r : LitRegion)
    (w l : Nat) (base : Vec3) (pidx : List Nat) (acc : LitAcc) (i : Nat)
    (hinv : litInvP acc) :
    litInvP (litCellStep reg air r w l base pidx acc i) := by
  rw [litCellStep]
  split
  · rcases hmin : acc.global_min with _ | mi <;>
      rcases hmax : acc.global_max with _ | ma <;>
      simp only [litInvP, hmin, hmax] at hinv ⊢
    · simp [hinv]
    · exact box_extend acc.all_blocks mi ma _ hinv.1 hinv.2.1 hinv.2.2.1
        hinv.2.2.2
  · exact hinv

theorem foldl_litCellStep_inv (reg : BlockRegistry) (air : Nat) (r : LitRegion)
    (w l : Nat) (base : Vec3) (pidx : List Nat) :
    ∀ (is : List Nat) (acc : LitAcc), litInvP acc →
      litInvP (is.foldl (litCellStep reg air r w l base pidx) acc) := by
  intro is
  induction is with
  | nil => intro acc hinv; exact hinv
  | cons i rest ih =>
    intro acc hinv
    exact ih _ (litCellStep_inv reg air r w l base pidx acc i hinv)

theorem litRegionStep_inv {reg : BlockRegistry} {air : Nat} {acc : LitAcc}
    {r : LitRegion} {acc' : LitAcc} (hinv : litInvP acc)
    (hok : litRegionStep reg air acc r = .ok acc') : litInvP acc' := by
  rw [litRegionStep] at hok
  split at hok
  · rw [← Except.ok.inj hok]
    exact hinv
  · split at hok
    · exact absurd hok (by simp)
    · rw [← Except.ok.inj hok]
      exact foldl_litCellStep_inv _ _ _ _ _ _ _ _ _ hinv

theorem foldlM_litRegionStep_inv :
    ∀ (regions : List LitRegion) (reg : BlockRegistry) (air : Nat)
      (acc acc' : LitAcc), litInvP acc →
      List.foldlM (litRegionStep reg air) acc regions = .ok acc' →
      litInvP acc' := by
  intro regions
  induction regions with
  | nil =>
    intro reg air acc acc' hinv hok
    have hok' : (Except.ok acc : Except String LitAcc) = Except.ok acc' := hok
    rw [← Except.ok.inj hok']
    exact hinv
  | cons r rest ih =>
    intro reg air acc acc' hinv hok
    cases hstep : litRegionStep reg air acc r with
    | error e =>
      rw [List.foldlM_cons, hstep] at hok
      have hok' : (Except.error e : Except String LitAcc) = Except.ok acc' := hok
      exact absurd hok' (by simp)
    | ok acc1 =>
      rw [List.foldlM_cons, hstep] at hok
      have hok' : List.foldlM (litRegionStep reg air) acc1 rest =
        Except.ok acc' := hok
      exact ih reg air acc1 acc' (litRegionStep_inv hinv hstep) hok'

/-- `toU16` is the identity on `[0, 65536)` values. -/
theorem toU16_eq_self (v : Int) (h0 : 0 ≤ v) (h1 : v < 65536) :
    (toU16 v : Int) = v := by
  rw [toU16]
  omega

/-- Successful Litematica load, inverted. -/
theorem loadLitematicCore_ok_inv {reg : BlockRegistry} {regions : List LitRegion}
    {bs : SchematicData} (hok : loadLitematicCore reg regions = .ok bs) :
    ∃ (acc : LitAcc) (mi ma : Vec3),
      List.foldlM (litRegionStep reg (airStateId reg))
        { all_blocks := [], global_min := none, global_max := none } regions =
        .ok acc ∧
      acc.global_min = some mi ∧ acc.global_max = some ma ∧
      bs = { width := toU16 (ma.x - mi.x + 1), height := toU16 (ma.y - mi.y + 1),
             length := toU16 (ma.z - mi.z + 1), offset := mi,
             blocks := acc.all_blocks.map (fun b =>
               (⟨b.1.x - mi.x, b.1.y - mi.y, b.1.z - mi.z⟩, b.2)) } := by
  rw [loadLitematicCore] at hok
  cases hacc : List.foldlM (litRegionStep reg (airStateId reg))
      { all_blocks := [], global_min := none, global_max := none } regions with
  | error e =>
    rw [hacc] at hok
    exact absurd hok (by simp)
  | ok acc =>
    rw [hacc] at hok
    have hok2 : litFinalize acc = .ok bs := hok
    rw [litFinalize] at hok2
    rcases hmin : acc.global_min with _ | mi <;>
      rcases hmax : acc.global_max with _ | ma <;>
      rw [hmin, hmax] at hok2
    · exact absurd hok2 (by simp)
    · exact absurd hok2 (by simp)
    · exact absurd hok2 (by simp)
    · exact ⟨acc, mi, ma, rfl, hmin, hmax, (Except.ok.inj hok2).symm⟩

/-- `wrapI32` is the identity exactly on `i32`-representable values. -/
theorem wrapI32_eq_self (v : Int) (h0 : -2147483648 ≤ v) (h1 : v < 2147483648) :
    wrapI32 v = v := by
  rw [wrapI32, toU32, ofU32]
  split <;> omega

theorem litCellStep_box (reg : BlockRegistry) (air : Nat) (r : LitRegion)
    (w_abs h_abs l_abs : Nat) (base : Vec3) (pidx : List Nat) (lo hiv : Vec3)
    (acc : LitAcc) (i : Nat) (hilt : i < w_abs * h_abs * l_abs)
    (hbx : lo.x ≤ base.x) (hbX : base.x + ((w_abs : Int) - 1) ≤ hiv.x)
    (hby : lo.y ≤ base.y) (hbY : base.y + ((h_abs : Int) - 1) ≤ hiv.y)
    (hbz : lo.z ≤ base.z) (hbZ : base.z + ((l_abs : Int) - 1) ≤ hiv.z)
    (hbox : litBoxInv lo hiv acc) :
    litBoxInv lo hiv (litCellStep reg air r w_abs l_abs base pidx acc i) := by
  have hP : 0 < w_abs * h_abs * l_abs := Nat.lt_of_le_of_lt (Nat.zero_le i) hilt
  have hw : 0 < w_abs := by
    rcases Nat.eq_zero_or_pos w_abs with h | h
    · rw [h] at hP; simp at hP
    · exact h
  have hh : 0 < h_abs := by
    rcases Nat.eq_zero_or_pos h_abs with h | h
    · rw [h] at hP; simp at hP
    · exact h
  have hl : 0 < l_abs := by
    rcases Nat.eq_zero_or_pos l_abs with h | h
    · rw [h] at hP; simp at hP
    · exact h
  have hlx : i % w_abs < w_abs := Nat.mod_lt _ hw
  have hlz : i / w_abs % l_abs < l_abs := Nat.mod_lt _ hl
  have hly : i / w_abs / l_abs < h_abs := by
    rw [Nat.div_lt_iff_lt_mul hl, Nat.div_lt_iff_lt_mul hw]
    calc i < w_abs * h_abs * l_abs := hilt
      _ = h_abs * l_abs * w_abs := by ring
  have hmx : ((i % w_abs : Nat) : Int) + 1 ≤ (w_abs : Int) := by exact_mod_cast hlx
  have hmy : ((i / w_abs / l_abs : Nat) : Int) + 1 ≤ (h_abs : Int) := by
    exact_mod_cast hly
  have hmz : ((i / w_abs % l_abs : Nat) : Int) + 1 ≤ (l_abs : Int) := by
    exact_mod_cast hlz
  have hnx : (0 : Int) ≤ ((i % w_abs : Nat) : Int) := Int.natCast_nonneg _
  have hny : (0 : Int) ≤ ((i / w_abs / l_abs : Nat) : Int) := Int.natCast_nonneg _
  have hnz : (0 : Int) ≤ ((i / w_abs % l_abs : Nat) : Int) := Int.natCast_nonneg _
  have hs : inBoxP lo hiv ⟨base.x + ((i % w_abs : Nat) : Int),
      base.y + ((i / w_abs / l_abs : Nat) : Int),
      base.z + ((i / w_abs % l_abs : Nat) : Int)⟩ := by
    simp only [inBoxP]
    refine ⟨by linarith, by linarith, by linarith, by linarith, by linarith,
      by linarith⟩
  rw [litCellStep]
  split
  · constructor
    · intro b hb
      rcases List.mem_append.1 hb with hb | hb
      · exact hbox.1 b hb
      · rw [List.mem_singleton.1 hb]
        exact hs
    · intro m hm
      rcases hgm : acc.global_min with _ | m0
      · rw [hgm] at hm
        have hmv : (⟨base.x + ((i % w_abs : Nat) : Int),
            base.y + ((i / w_abs / l_abs : Nat) : Int),
            base.z + ((i / w_abs % l_abs : Nat) : Int)⟩ : Vec3) = m :=
          Option.some.inj hm
        rw [← hmv]
        exact hs
      · rw [hgm] at hm
        have hmv : (⟨min m0.x (base.x + ((i % w_abs : Nat) : Int)),
            min m0.y (base.y + ((i / w_abs / l_abs : Nat) : Int)),
            min m0.z (base.z + ((i / w_abs % l_abs : Nat) : Int))⟩ : Vec3) = m :=
          Option.some.inj hm
        have hm0 := hbox.2 m0 hgm
        rw [← hmv]
        simp only [inBoxP] at hs hm0 ⊢
        exact ⟨le_min hm0.1 hs.1, le_trans (min_le_left _ _) hm0.2.1,
          le_min hm0.2.2.1 hs.2.2.1, le_trans (min_le_left _ _) hm0.2.2.2.1,
          le_min hm0.2.2.2.2.1 hs.2.2.2.2.1,
          le_trans (min_le_left _ _) hm0.2.2.2.2.2⟩
  · exact hbox

theorem foldl_litCellStep_box (reg : BlockRegistry) (air : Nat) (r : LitRegion)
    (w_abs h_abs l_abs : Nat) (base : Vec3) (pidx : List Nat) (lo hiv : Vec3)
    (hbx : lo.x ≤ base.x) (hbX : base.x + ((w_abs : Int) - 1) ≤ hiv.x)
    (hby : lo.y ≤ base.y) (hbY : base.y + ((h_abs : Int) - 1) ≤ hiv.y)
    (hbz : lo.z ≤ base.z) (hbZ : base.z + ((l_abs : Int) - 1) ≤ hiv.z) :
    ∀ (is : List Nat), (∀ i ∈ is, i < w_abs * h_abs * l_abs) →
      ∀ acc : LitAcc, litBoxInv lo hiv acc →
      litBoxInv lo hiv (is.foldl (litCellStep reg air r w_abs l_abs base pidx) acc) := by
  intro is
  induction is with
  | nil => intro _ acc hbox; exact hbox
  | cons i rest ih =>
    intro hmem acc hbox
    simp only [List.foldl_cons]
    exact ih (fun j hj => hmem j (by simp [hj])) _
      (litCellStep_box reg air r w_abs h_abs l_abs base pidx lo hiv acc i
        (hmem i (by simp)) hbx hbX hby hbY hbz hbZ hbox)

theorem litRegionStep_box {reg : BlockRegistry} {air : Nat} {acc : LitAcc}
    {r : LitRegion} {acc' : LitAcc} {lo hiv : Vec3}
    (hbox : litBoxInv lo hiv acc)
    (hrx : lo.x ≤ litBase r.pos.x r.size.x ∧
      litBase r.pos.x r.size.x + ((r.size.x.natAbs : Int) - 1) ≤ hiv.x)
    (hry : lo.y ≤ litBase r.pos.y r.size.y ∧
      litBase r.pos.y r.size.y + ((r.size.y.natAbs : Int) - 1) ≤ hiv.y)
    (hrz : lo.z ≤ litBase r.pos.z r.size.z ∧
      litBase r.pos.z r.size.z + ((r.size.z.natAbs : Int) - 1) ≤ hiv.z)
    (hok : litRegionStep reg air acc r = .ok acc') : litBoxInv lo hiv acc' := by
  rw [litRegionStep] at hok
  split at hok
  · rw [← Except.ok.inj hok]
    exact hbox
  · split at hok
    · exact absurd hok (by simp)
    · rw [← Except.ok.inj hok]
      exact foldl_litCellStep_box reg air r r.size.x.natAbs r.size.y.natAbs
        r.size.z.natAbs
        ⟨litBase r.pos.x r.size.x, litBase r.pos.y r.size.y,
          litBase r.pos.z r.size.z⟩ _ lo hiv hrx.1 hrx.2 hry.1 hry.2 hrz.1 hrz.2
        _ (fun j hj => List.mem_range.1 hj) acc hbox

theorem foldlM_litRegionStep_box :
    ∀ (regions : List LitRegion) (reg : BlockRegistry) (air : Nat)
      (acc acc' : LitAcc) (lo hiv : Vec3),
      (∀ r ∈ regions,
        (lo.x ≤ litBase r.pos.x r.size.x ∧
          litBase r.pos.x r.size.x + ((r.size.x.natAbs : Int) - 1) ≤ hiv.x) ∧
        (lo.y ≤ litBase r.pos.y r.size.y ∧
          litBase r.pos.y r.size.y + ((r.size.y.natAbs : Int) - 1) ≤ hiv.y) ∧
        (lo.z ≤ litBase r.pos.z r.size.z ∧
          litBase r.pos.z r.size.z + ((r.size.z.natAbs : Int) - 1) ≤ hiv.z)) →
      litBoxInv lo hiv acc →
      List.foldlM (litRegionStep reg air) acc regions = .ok acc' →
      litBoxInv lo hiv acc' := by
  intro regions
  induction regions with
  | nil =>
    intro reg air acc acc' lo hiv _ hbox hok
    have hok' : (Except.ok acc : Except String LitAcc) = Except.ok acc' := hok
    rw [← Except.ok.inj hok']
    exact hbox
  | cons r rest ih =>
    intro reg air acc acc' lo hiv hregs hbox hok
    cases hstep : litRegionStep reg air acc r with
    | error e =>
      rw [List.foldlM_cons, hstep] at hok
      have hok' : (Except.error e : Except String LitAcc) = Except.ok acc' := hok
      exact absurd hok' (by simp)
    | ok acc1 =>
      rw [List.foldlM_cons, hstep] at hok
      have hok' : List.foldlM (litRegionStep reg air) acc1 rest =
        Except.ok acc' := hok
      have hr := hregs r (by simp)
      exact ih reg air acc1 acc' lo hiv (fun q hq => hregs q (by simp [hq]))
        (litRegionStep_box hbox hr.1 hr.2.1 hr.2.2 hstep) hok'

/-- C2 (amended): on the domain where the source's `i32` position arithmetic
cannot overflow, decoded positions are in bounds.  Single-region path: if the
stored `Offset` components are at least `-2^31` and `offset + dims - 1 < 2^31`
on each axis, every position satisfies `offset ≤ p ≤ offset + dims - 1`
componentwise (the claimed `[0, dims-1]` range holds only for a zero stored
`Offset`, which the decoder adds to every coordinate) and every stored
coordinate is a fixed point of `wrapI32`, so the source's wrapping `i32`
addition at the offset step produces exactly these values.  Litematica path:
if every region's corner box `[litBase, litBase + |size| - 1]` lies inside an
`i32`-representable box `[lo, hiv]` whose extent is below `2^31` on each axis,
positions are nonnegative, each coordinate is a fixed point of `wrapI32` (so
the base-plus-local additions and the min-normalization subtractions do not
wrap), and positions are bounded by `dims - 1` whenever the merged extent fits
16 bits (the stored dimensions are the extents reduced mod `2^16`). -/
theorem C2_decoded_positions_in_bounds :
    (∀ (reg : BlockRegistry) (w h l : Nat) (off : Vec3)
        (pal : List (String × Int)) (data : List Nat) (bs : SchematicData),
      loadSchematicCore reg w h l off pal data = .ok bs →
      -2147483648 ≤ off.x → off.x + (w : Int) - 1 < 2147483648 →
      -2147483648 ≤ off.y → off.y + (h : Int) - 1 < 2147483648 →
      -2147483648 ≤ off.z → off.z + (l : Int) - 1 < 2147483648 →
      ∀ p ∈ bs.blocks,
        (off.x ≤ p.1.x ∧ p.1.x ≤ off.x + (bs.width : Int) - 1 ∧
         off.y ≤ p.1.y ∧ p.1.y ≤ off.y + (bs.height : Int) - 1 ∧
         off.z ≤ p.1.z ∧ p.1.z ≤ off.z + (bs.length : Int) - 1) ∧
        wrapI32 p.1.x = p.1.x ∧ wrapI32 p.1.y = p.1.y ∧ wrapI32 p.1.z = p.1.z) ∧
    (∀ (reg : BlockRegistry) (regions : List LitRegion) (bs : SchematicData)
        (lo hiv : Vec3),
      loadLitematicCore reg regions = .ok bs →
      -2147483648 ≤ lo.x → hiv.x - lo.x < 2147483648 → hiv.x < 2147483648 →
      -2147483648 ≤ lo.y → hiv.y - lo.y < 2147483648 → hiv.y < 2147483648 →
      -2147483648 ≤ lo.z → hiv.z - lo.z < 2147483648 → hiv.z < 2147483648 →
      (∀ r ∈ regions,
        (lo.x ≤ litBase r.pos.x r.size.x ∧
          litBase r.pos.x r.size.x + ((r.size.x.natAbs : Int) - 1) ≤ hiv.x) ∧
        (lo.y ≤ litBase r.pos.y r.size.y ∧
          litBase r.pos.y r.size.y + ((r.size.y.natAbs : Int) - 1) ≤ hiv.y) ∧
        (lo.z ≤ litBase r.pos.z r.size.z ∧
          litBase r.pos.z r.size.z + ((r.size.z.natAbs : Int) - 1) ≤ hiv.z)) →
      (∀ p ∈ bs.blocks,
        (0 ≤ p.1.x ∧ 0 ≤ p.1.y ∧ 0 ≤ p.1.z) ∧
        wrapI32 p.1.x = p.1.x ∧ wrapI32 p.1.y = p.1.y ∧ wrapI32 p.1.z = p.1.z) ∧
      ((∀ q ∈ bs.blocks, q.1.x ≤ 65534 ∧ q.1.y ≤ 65534 ∧ q.1.z ≤ 65534) →
        ∀ p ∈ bs.blocks, p.1.x ≤ (bs.width : Int) - 1 ∧
          p.1.y ≤ (bs.height : Int) - 1 ∧ p.1.z ≤ (bs.length : Int) - 1)) := by
  constructor
  · intro reg w h l off pal data bs hok h1x h2x h1y h2y h1z h2z p hp
    obtain ⟨idxs, hdec, hlen, hbs⟩ := loadSchematicCore_ok_inv hok
    subst hbs
    obtain ⟨i, pi, hienum, hair, hpeq⟩ := schemBlocksOf_mem hp
    have hi : i < idxs.length := (List.mem_enum hienum).1
    rw [hlen] at hi
    have hw : 0 < w := by by_contra hc; simp [Nat.eq_zero_of_not_pos hc] at hi
    have hh : 0 < h := by
      by_contra hc
      rw [Nat.eq_zero_of_not_pos hc] at hi
      simp at hi
    have hl0 : 0 < l := by
      by_contra hc
      rw [Nat.eq_zero_of_not_pos hc] at hi
      simp at hi
    have hx : (schemCoords w l i).1 < w := by
      rw [schemCoords]
      exact Nat.mod_lt _ hw
    have hy : (schemCoords w l i).2.1 < h := by
      rw [schemCoords]
      rw [Nat.div_lt_iff_lt_mul (by positivity)]
      calc i < w * h * l := hi
        _ = h * (w * l) := by ring
    have hz : (schemCoords w l i).2.2 < l := by
      rw [schemCoords]
      rw [Nat.div_lt_iff_lt_mul hw]
      calc i % (w * l) < w * l := Nat.mod_lt _ (by positivity)
        _ = l * w := by ring
    rw [hpeq]
    constructor
    · refine ⟨?_, ?_, ?_, ?_, ?_, ?_⟩ <;> simp <;> omega
    · refine ⟨?_, ?_, ?_⟩ <;> simp <;>
        exact wrapI32_eq_self _ (by omega) (by omega)
  · intro reg regions bs lo hiv hok hlox hsx hhix hloy hsy hhiy hloz hsz hhiz hregs
    obtain ⟨acc, mi, ma, hacc, hmin, hmax, hbs⟩ := loadLitematicCore_ok_inv hok
    have hinv := foldlM_litRegionStep_inv regions reg (airStateId reg) _ acc
      (by simp [litInvP]) hacc
    simp only [litInvP, hmin, hmax] at hinv
    obtain ⟨hbound, ⟨bx, hbx, hbxe⟩, ⟨by', hby, hbye⟩, ⟨bz, hbz, hbze⟩⟩ := hinv
    have hbox := foldlM_litRegionStep_box regions reg (airStateId reg) _ acc
      lo hiv hregs
      ⟨fun b hb => absurd hb (by simp), fun m hm => absurd hm (by simp)⟩ hacc
    have hmiB := hbox.2 mi hmin
    simp only [inBoxP] at hmiB
    subst hbs
    constructor
    · intro p hp
      obtain ⟨b, hb, hbe⟩ := List.mem_map.1 hp
      have hbb := hbound b hb
      have hbB := hbox.1 b hb
      simp only [inBoxP] at hbB
      rw [← hbe]
      constructor
      · refine ⟨?_, ?_, ?_⟩ <;> simp <;> omega
      · refine ⟨?_, ?_, ?_⟩ <;> simp <;>
          exact wrapI32_eq_self _ (by omega) (by omega)
    · intro hsmall p hp
      obtain ⟨b, hb, hbe⟩ := List.mem_map.1 hp
      have hbb := hbound b hb
      have hqx := hsmall _ (List.mem_map.2 ⟨bx, hbx, rfl⟩)
      have hqy := hsmall _ (List.mem_map.2 ⟨by', hby, rfl⟩)
      have hqz := hsmall _ (List.mem_map.2 ⟨bz, hbz, rfl⟩)
      simp only at hqx hqy hqz
      have hex : (toU16 (ma.x - mi.x + 1) : Int) = ma.x - mi.x + 1 := by
        have := hbound bx hbx
        refine toU16_eq_self _ (by omega) (by omega)
      have hey : (toU16 (ma.y - mi.y + 1) : Int) = ma.y - mi.y + 1 := by
        have := hbound by' hby
        refine toU16_eq_self _ (by omega) (by omega)
      have hez : (toU16 (ma.z - mi.z + 1) : Int) = ma.z - mi.z + 1 := by
        have := hbound bz hbz
        refine toU16_eq_self _ (by omega) (by omega)
      rw [← hbe]
      refine ⟨?_, ?_, ?_⟩ <;> simp only [SchematicData.width, SchematicData.height,
        SchematicData.length] <;> simp <;> omega

/-- Counterexample to C2 as stated: a 1×1×1 schematic with stored offset
`(5,0,0)` decodes to a block at `(5,0,0)`, outside `[0, width-1] = [0,0]`. -/
theorem C2_counterexample :
    ∃ bs, loadSchematicCore testReg 1 1 1 ⟨5, 0, 0⟩ [("minecraft:stone", 0)] [0] =
        .ok bs ∧
      ¬ (∀ p ∈ bs.blocks, 0 ≤ p.1.x ∧ p.1.x ≤ (bs.width : Int) - 1 ∧
          0 ≤ p.1.y ∧ p.1.y ≤ (bs.height : Int) - 1 ∧
          0 ≤ p.1.z ∧ p.1.z ≤ (bs.length : Int) - 1) := by
  refine ⟨_, rfl, fun hall => ?_⟩
  have := hall (⟨5, 0, 0⟩, 1) (by decide)
  norm_num at this

/-- Witness for C2 (amended) on a concrete schematic with offset `(5,0,0)` and
a concrete Litematica region inside the box `[(4,0,4), (5,0,5)]`. -/
theorem C2_decoded_positions_in_bounds_witness :
    (∀ p ∈ [((⟨5, 0, 0⟩ : Vec3), 1)],
      ((5 : Int) ≤ p.1.x ∧ p.1.x ≤ 5 + ((1 : Nat) : Int) - 1 ∧
       (0 : Int) ≤ p.1.y ∧ p.1.y ≤ 0 + ((1 : Nat) : Int) - 1 ∧
       (0 : Int) ≤ p.1.z ∧ p.1.z ≤ 0 + ((1 : Nat) : Int) - 1) ∧
      wrapI32 p.1.x = p.1.x ∧ wrapI32 p.1.y = p.1.y ∧ wrapI32 p.1.z = p.1.z) ∧
    (∀ p ∈ [((⟨0, 0, 0⟩ : Vec3), 1)],
      ((0 : Int) ≤ p.1.x ∧ 0 ≤ p.1.y ∧ 0 ≤ p.1.z) ∧
      wrapI32 p.1.x = p.1.x ∧ wrapI32 p.1.y = p.1.y ∧ wrapI32 p.1.z = p.1.z) := by
  constructor
  · have h1 := C2_decoded_positions_in_bounds.1 testReg 1 1 1 ⟨5, 0, 0⟩
      [("minecraft:stone", 0)] [0]
      { width := 1, height := 1, length := 1, offset := ⟨5, 0, 0⟩,
        blocks := [(⟨5, 0, 0⟩, 1)] } rfl (by decide) (by decide) (by decide)
      (by decide) (by decide) (by decide)
    exact h1
  · have h2 := (C2_decoded_positions_in_bounds.2 testReg
      [{ pos := ⟨5, 0, 5⟩, size := ⟨-2, 1, -2⟩,
         palette := [("minecraft:air", 0), ("minecraft:stone", 1)],
         blockStates := [1] }]
      { width := 1, height := 1, length := 1, offset := ⟨4, 0, 4⟩,
        blocks := [(⟨0, 0, 0⟩, 1)] } ⟨4, 0, 4⟩ ⟨5, 0, 5⟩ rfl (by decide)
      (by decide) (by decide) (by decide) (by decide) (by decide) (by decide)
      (by decide) (by decide) (by decide)).1
    exact h2

/-! ## Lemmas: the encoder's bounding box (C1) -/

theorem clipFold_proj : ∀ (blocks : List (Vec3 × Nat)) (mm : Vec3 × Vec3),
    (blocks.foldl clipStep mm).1.x =
      blocks.foldl (fun a b => min a b.1.x) mm.1.x ∧
    (blocks.foldl clipStep mm).1.y =
      blocks.foldl (fun a b => min a b.1.y) mm.1.y ∧
    (blocks.foldl clipStep mm).1.z =
      blocks.foldl (fun a b => min a b.1.z) mm.1.z ∧
    (blocks.foldl clipStep mm).2.x =
      blocks.foldl (fun a b => max a b.1.x) mm.2.x ∧
    (blocks.foldl clipStep mm).2.y =
      blocks.foldl (fun a b => max a b.1.y) mm.2.y ∧
    (blocks.foldl clipStep mm).2.z =
      blocks.foldl (fun a b => max a b.1.z) mm.2.z := by
  intro blocks
  induction blocks with
  | nil => intro mm; exact ⟨rfl, rfl, rfl, rfl, rfl, rfl⟩
  | cons b bs ih =>
    intro mm
    simp only [List.foldl_cons]
    exact ih (clipStep mm b)

theorem foldl_min_spec {α : Type} (g : α → Int) :
    ∀ (l : List α) (a : Int),
      (l.foldl (fun acc x => min acc (g x)) a ≤ a) ∧
      (∀ x ∈ l, l.foldl (fun acc x => min acc (g x)) a ≤ g x) ∧
      (l.foldl (fun acc x => min acc (g x)) a = a ∨
        ∃ x ∈ l, l.foldl (fun acc x => min acc (g x)) a = g x) := by
  intro l
  induction l with
  | nil => intro a; exact ⟨le_refl a, by simp, Or.inl rfl⟩
  | cons x xs ih =>
    intro a
    simp only [List.foldl_cons]
    obtain ⟨h1, h2, h3⟩ := ih (min a (g x))
    refine ⟨le_trans h1 (min_le_left _ _), ?_, ?_⟩
    · intro y hy
      rcases List.mem_cons.1 hy with hy | hy
      · rw [hy]
        exact le_trans h1 (min_le_right _ _)
      · exact h2 y hy
    · rcases h3 with h3 | ⟨y, hy, hye⟩
      · rcases le_or_lt a (g x) with hax | hax
        · exact Or.inl (by rw [h3]; exact min_eq_left hax)
        · exact Or.inr ⟨x, by simp, by rw [h3]; exact min_eq_right (le_of_lt hax)⟩
      · exact Or.inr ⟨y, by simp [hy], hye⟩

theorem foldl_max_spec {α : Type} (g : α → Int) :
    ∀ (l : List α) (a : Int),
      (a ≤ l.foldl (fun acc x => max acc (g x)) a) ∧
      (∀ x ∈ l, g x ≤ l.foldl (fun acc x => max acc (g x)) a) ∧
      (l.foldl (fun acc x => max acc (g x)) a = a ∨
        ∃ x ∈ l, l.foldl (fun acc x => max acc (g x)) a = g x) := by
  intro l
  induction l with
  | nil => intro a; exact ⟨le_refl a, by simp, Or.inl rfl⟩
  | cons x xs ih =>
    intro a
    simp only [List.foldl_cons]
    obtain ⟨h1, h2, h3⟩ := ih (max a (g x))
    refine ⟨le_trans (le_max_left _ _) h1, ?_, ?_⟩
    · intro y hy
      rcases List.mem_cons.1 hy with hy | hy
      · rw [hy]
        exact le_trans (le_max_right _ _) h1
      · exact h2 y hy
    · rcases h3 with h3 | ⟨y, hy, hye⟩
      · rcases le_or_lt (g x) a with hax | hax
        · exact Or.inl (by rw [h3]; exact max_eq_left hax)
        · exact Or.inr ⟨x, by simp, by rw [h3]; exact max_eq_right (le_of_lt hax)⟩
      · exact Or.inr ⟨y, by simp [hy], hye⟩

/-- The encoder's bounding box bounds every clipboard block and each of its
six faces is achieved by some block (the fold starts at the first block's
position). -/
theorem clipBounds_spec (blocks : List (Vec3 × Nat)) (first : Vec3)
    (hfirst : ∃ b0 ∈ blocks, b0.1 = first) :
    (∀ b ∈ blocks,
      (clipBounds blocks first).1.x ≤ b.1.x ∧ b.1.x ≤ (clipBounds blocks first).2.x ∧
      (clipBounds blocks first).1.y ≤ b.1.y ∧ b.1.y ≤ (clipBounds blocks first).2.y ∧
      (clipBounds blocks first).1.z ≤ b.1.z ∧ b.1.z ≤ (clipBounds blocks first).2.z) ∧
    (∃ b ∈ blocks, b.1.x = (clipBounds blocks first).1.x) ∧
    (∃ b ∈ blocks, b.1.x = (clipBounds blocks first).2.x) ∧
    (∃ b ∈ blocks, b.1.y = (clipBounds blocks first).1.y) ∧
    (∃ b ∈ blocks, b.1.y = (clipBounds blocks first).2.y) ∧
    (∃ b ∈ blocks, b.1.z = (clipBounds blocks first).1.z) ∧
    (∃ b ∈ blocks, b.1.z = (clipBounds blocks first).2.z) := by
  obtain ⟨b0, hb0, hb0e⟩ := hfirst
  obtain ⟨px, py, pz, qx, qy, qz⟩ := clipFold_proj blocks (first, first)
  rw [clipBounds]
  obtain ⟨minx1, minx2, minx3⟩ := foldl_min_spec (fun b => b.1.x) blocks first.x
  obtain ⟨miny1, miny2, miny3⟩ := foldl_min_spec (fun b => b.1.y) blocks first.y
  obtain ⟨minz1, minz2, minz3⟩ := foldl_min_spec (fun b => b.1.z) blocks first.z
  obtain ⟨maxx1, maxx2, maxx3⟩ := foldl_max_spec (fun b => b.1.x) blocks first.x
  obtain ⟨maxy1, maxy2, maxy3⟩ := foldl_max_spec (fun b => b.1.y) blocks first.y
  obtain ⟨maxz1, maxz2, maxz3⟩ := foldl_max_spec (fun b => b.1.z) blocks first.z
  refine ⟨?_, ?_, ?_, ?_, ?_, ?_, ?_⟩
  · intro b hb
    rw [px, py, pz, qx, qy, qz]
    exact ⟨minx2 b hb, maxx2 b hb, miny2 b hb, maxy2 b hb, minz2 b hb, maxz2 b hb⟩
  · rw [px]
    rcases minx3 with h | ⟨b, hb, hbe⟩
    · exact ⟨b0, hb0, by rw [h, hb0e]⟩
    · exact ⟨b, hb, hbe.symm⟩
  · rw [qx]
    rcases maxx3 with h | ⟨b, hb, hbe⟩
    · exact ⟨b0, hb0, by rw [h, hb0e]⟩
    · exact ⟨b, hb, hbe.symm⟩
  · rw [py]
    rcases miny3 with h | ⟨b, hb, hbe⟩
    · exact ⟨b0, hb0, by rw [h, hb0e]⟩
    · exact ⟨b, hb, hbe.symm⟩
  · rw [qy]
    rcases maxy3 with h | ⟨b, hb, hbe⟩
    · exact ⟨b0, hb0, by rw [h, hb0e]⟩
    · exact ⟨b, hb, hbe.symm⟩
  · rw [pz]
    rcases minz3 with h | ⟨b, hb, hbe⟩
    · exact ⟨b0, hb0, by rw [h, hb0e]⟩
    · exact ⟨b, hb, hbe.symm⟩
  · rw [qz]
    rcases maxz3 with h | ⟨b, hb, hbe⟩
    · exact ⟨b0, hb0, by rw [h, hb0e]⟩
    · exact ⟨b, hb, hbe.symm⟩

/-! ## Lemmas: the encoder's palette fold (C1) -/

theorem paletteLookup_append (pal : List (Nat × Int)) (e : Nat × Int) (s : Nat) :
    paletteLookup (pal ++ [e]) s =
      (paletteLookup pal s).or (paletteLookup [e] s) := by
  rw [paletteLookup, paletteLookup, paletteLookup, List.find?_append]
  cases List.find? (fun x => x.1 == s) pal <;> simp

theorem paletteLookup_single (k : Nat) (i : Int) (s : Nat) :
    paletteLookup [(k, i)] s = if k = s then some i else none := by
  by_cases h : k = s
  · simp [paletteLookup, List.find?, h]
  · simp [paletteLookup, List.find?, beq_eq_false_iff_ne.2 h, h]

theorem mapLookupLast_append (names : List (Int × String)) (e : Int × String)
    (j : Int) :
    mapLookupLast (names ++ [e]) j =
      if e.1 = j then some e.2 else mapLookupLast names j := by
  rw [mapLookupLast, mapLookupLast, List.reverse_append]
  by_cases h : e.1 = j
  · simp [List.find?, h]
  · simp [List.find?, beq_eq_false_iff_ne.2 h, h]

theorem palStep_inv {reg : BlockRegistry} {air : Nat} {acc : PaletteAcc}
    (hinv : PalInv reg air acc) (b : Vec3 × Nat) (hb : b.2 < 65536) :
    PalInv reg air (palStep reg acc b) := by
  rw [palStep]
  split
  · exact hinv
  case isFalse hnone =>
  have hlookup_none : paletteLookup acc.palette b.2 = none :=
    Option.not_isSome_iff_eq_none.1 hnone
  have hnext1 : 1 ≤ acc.next_index := by
    have hmem := hinv.air_idx
    rw [paletteLookup] at hmem
    have : acc.palette ≠ [] := by
      intro hnil
      rw [hnil] at hmem
      simp at hmem
    have : 1 ≤ acc.palette.length := by
      cases hp : acc.palette with
      | nil => exact absurd hp this
      | cons a l => simp
    rw [hinv.next_eq]
    exact_mod_cast this
  refine ⟨?_, ?_, ?_, ?_, ?_, ?_, ?_, ?_⟩
  · rw [paletteLookup_append, hinv.air_idx]
    rfl
  · intro s i hsi
    rw [paletteLookup_append] at hsi
    cases hold : paletteLookup acc.palette s with
    | some i' =>
      rw [hold] at hsi
      have hii : i = i' := by
        rw [Option.or] at hsi
        exact (Option.some.inj hsi).symm
      have := hinv.key_bound s i' hold
      refine ⟨by omega, ?_⟩
      show i < acc.next_index + 1
      omega
    | none =>
      rw [hold] at hsi
      rw [Option.or, paletteLookup_single] at hsi
      by_cases hks : b.2 = s
      · rw [if_pos hks] at hsi
        have hie : i = acc.next_index := (Option.some.inj hsi).symm
        refine ⟨by omega, ?_⟩
        show i < acc.next_index + 1
        omega
      · rw [if_neg hks] at hsi
        exact absurd hsi (by simp)
  · simp only [List.length_append, List.length_singleton]
    rw [hinv.next_eq]
    push_cast
    ring
  · intro s i hsi hsair
    rw [paletteLookup_append] at hsi
    cases hold : paletteLookup acc.palette s with
    | some i' =>
      rw [hold] at hsi
      have hii : i = i' := by
        rw [Option.or] at hsi
        exact (Option.some.inj hsi).symm
      have hb1 := hinv.key_bound s i' hold
      rw [mapLookupLast_append, if_neg (by simp only []; omega)]
      exact hii ▸ hinv.name_of s i' hold hsair
    | none =>
      rw [hold] at hsi
      rw [Option.or, paletteLookup_single] at hsi
      by_cases hks : b.2 = s
      · rw [if_pos hks] at hsi
        have hie : i = acc.next_index := (Option.some.inj hsi).symm
        rw [mapLookupLast_append, if_pos (by simp only []; omega)]
        rw [hks]
      · rw [if_neg hks] at hsi
        exact absurd hsi (by simp)
  · rw [mapLookupLast_append, if_neg (by simp only []; omega)]
    exact hinv.name_zero
  · intro e he
    rcases List.mem_append.1 he with he | he
    · have := hinv.names_idx e he
      refine ⟨by omega, ?_⟩
      show e.1 < acc.next_index + 1
      omega
    · rw [List.mem_singleton.1 he]
      refine ⟨by omega, ?_⟩
      show acc.next_index < acc.next_index + 1
      omega
  · simp only [List.map_append, List.map_cons, List.map_nil]
    rw [List.nodup_append]
    refine ⟨hinv.keys_nodup, by simp, ?_⟩
    intro k hk hk2
    have hkb : k = b.2 := List.mem_singleton.1 hk2
    have hfind : List.find? (fun x => x.1 == b.2) acc.palette = none := by
      have hm := hlookup_none
      rw [paletteLookup, Option.map_eq_none'] at hm
      exact hm
    rw [List.find?_eq_none] at hfind
    obtain ⟨e, he, hee⟩ := List.mem_map.1 hk
    have := hfind e he
    simp [hee, hkb] at this
  · intro k hk
    simp only [List.map_append, List.map_cons, List.map_nil] at hk
    rcases List.mem_append.1 hk with hk | hk
    · exact hinv.keys_lt k hk
    · rw [List.mem_singleton.1 hk]
      exact hb

theorem palFold_inv {reg : BlockRegistry} {air : Nat} :
    ∀ (blocks : List (Vec3 × Nat)) (acc : PaletteAcc), PalInv reg air acc →
      (∀ b ∈ blocks, b.2 < 65536) →
      PalInv reg air (blocks.foldl (palStep reg) acc) := by
  intro blocks
  induction blocks with
  | nil => intro acc hinv _; exact hinv
  | cons b bs ih =>
    intro acc hinv hlt
    simp only [List.foldl_cons]
    exact ih _ (palStep_inv hinv b (hlt b (by simp)))
      (fun c hc => hlt c (by simp [hc]))

theorem palStep_lookup_mono {reg : BlockRegistry} {acc : PaletteAcc}
    {s : Nat} {i : Int} (h : paletteLookup acc.palette s = some i)
    (b : Vec3 × Nat) : paletteLookup (palStep reg acc b).palette s = some i := by
  rw [palStep]
  split
  · exact h
  · simp only []
    rw [paletteLookup_append, h]
    rfl

theorem palFold_lookup_mono {reg : BlockRegistry} :
    ∀ (blocks : List (Vec3 × Nat)) (acc : PaletteAcc) (s : Nat) (i : Int),
      paletteLookup acc.palette s = some i →
      paletteLookup (blocks.foldl (palStep reg) acc).palette s = some i := by
  intro blocks
  induction blocks with
  | nil => intro acc s i h; exact h
  | cons b bs ih =>
    intro acc s i h
    simp only [List.foldl_cons]
    exact ih _ s i (palStep_lookup_mono h b)

theorem palStep_lookup_self {reg : BlockRegistry} (acc : PaletteAcc)
    (b : Vec3 × Nat) :
    ∃ i, paletteLookup (palStep reg acc b).palette b.2 = some i := by
  rw [palStep]
  split
  case isTrue h =>
    obtain ⟨i, hi⟩ := Option.isSome_iff_exists.1 h
    exact ⟨i, hi⟩
  case isFalse h =>
    have hnone : paletteLookup acc.palette b.2 = none :=
      Option.not_isSome_iff_eq_none.1 h
    refine ⟨acc.next_index, ?_⟩
    simp only []
    rw [paletteLookup_append, hnone, Option.or, paletteLookup_single, if_pos rfl]

theorem palFold_present {reg : BlockRegistry} :
    ∀ (blocks : List (Vec3 × Nat)) (acc : PaletteAcc) (b : Vec3 × Nat),
      b ∈ blocks →
      ∃ i, paletteLookup (blocks.foldl (palStep reg) acc).palette b.2 = some i := by
  intro blocks
  induction blocks with
  | nil => intro acc b hb; exact absurd hb (by simp)
  | cons c cs ih =>
    intro acc b hb
    simp only [List.foldl_cons]
    rcases List.mem_cons.1 hb with hb | hb
    · subst hb
      obtain ⟨i, hi⟩ := @palStep_lookup_self reg acc b
      exact ⟨i, palFold_lookup_mono cs _ b.2 i hi⟩
    · exact ih _ b hb

/-- A list of distinct `u16` keys has at most 65536 entries. -/
theorem palette_length_le (pal : List (Nat × Int))
    (hnodup : (pal.map (fun e => e.1)).Nodup)
    (hlt : ∀ k ∈ pal.map (fun e => e.1), k < 65536) : pal.length ≤ 65536 := by
  have hsub : pal.map (fun e => e.1) ⊆ List.range 65536 := by
    intro k hk
    exact List.mem_range.2 (hlt k hk)
  have := (List.subperm_of_subset hnodup hsub).length_le
  rw [List.length_map] at this
  simpa using this

/-! ## Lemmas: the encoder's grid as a flat map (C1) -/

theorem flatMap_range_map {α : Type} (m : Nat) (g : Nat → Nat → α) :
    ∀ (n : Nat), (List.range n).flatMap (fun a => (List.range m).map (fun b => g a b)) =
      (List.range (n * m)).map (fun i => g (i / m) (i % m)) := by
  intro n
  induction n with
  | zero => simp
  | succ n ih =>
    rw [List.range_succ, List.flatMap_append, ih, Nat.succ_mul, List.range_add,
      List.map_append]
    congr 1
    · rw [List.flatMap_singleton, List.map_map]
      apply List.map_congr_left
      intro j hj
      have hjm : j < m := List.mem_range.1 hj
      have hd : (n * m + j) / m = n := by
        rw [Nat.add_comm, Nat.mul_comm n m, Nat.add_mul_div_left j n (by omega),
          Nat.div_eq_of_lt hjm]
        omega
      have hm : (n * m + j) % m = j := by
        rw [Nat.add_comm, Nat.mul_comm n m, Nat.add_mul_mod_self_left]
        exact Nat.mod_eq_of_lt hjm
      simp [Function.comp, hd, hm]

theorem buildBlockData_eq (width length height : Nat) (minv : Vec3)
    (blocks : List (Vec3 × Nat)) (pal : List (Nat × Int)) :
    buildBlockData width length height minv blocks pal =
      (List.range (height * (length * width))).map (fun i =>
        gridCellAt minv blocks pal ((schemCoords width length i).1)
          ((schemCoords width length i).2.1) ((schemCoords width length i).2.2)) := by
  rw [buildBlockData]
  have hinner : ∀ y : Nat, (List.range length).flatMap (fun z =>
      (List.range width).map (fun x => gridCellAt minv blocks pal x y z)) =
      (List.range (length * width)).map (fun j =>
        gridCellAt minv blocks pal (j % width) y (j / width)) := by
    intro y
    exact flatMap_range_map width (fun z x => gridCellAt minv blocks pal x y z) length
  rw [funext hinner, flatMap_range_map (length * width)
    (fun y j => gridCellAt minv blocks pal (j % width) y (j / width)) height]
  apply List.map_congr_left
  intro i _
  rw [schemCoords]
  have hcomm : width * length = length * width := Nat.mul_comm width length
  rw [hcomm]

theorem buildBlockData_length (width length height : Nat) (minv : Vec3)
    (blocks : List (Vec3 × Nat)) (pal : List (Nat × Int)) :
    (buildBlockData width length height minv blocks pal).length =
      height * (length * width) := by
  rw [buildBlockData_eq]
  simp

theorem buildBlockData_getElem (width length height : Nat) (minv : Vec3)
    (blocks : List (Vec3 × Nat)) (pal : List (Nat × Int)) (i : Nat)
    (hi : i < (buildBlockData width length height minv blocks pal).length) :
    (buildBlockData width length height minv blocks pal)[i] =
      gridCellAt minv blocks pal ((schemCoords width length i).1)
        ((schemCoords width length i).2.1) ((schemCoords width length i).2.2) := by
  have hi2 : i < height * (length * width) := by
    rw [← buildBlockData_length width length height minv blocks pal]
    exact hi
  simp only [buildBlockData_eq, List.getElem_map, List.getElem_range]

/-! ## Lemmas: the encoder's block map (C1) -/

theorem blockMapGet_mem {blocks : List (Vec3 × Nat)} {key : Vec3} {s : Nat}
    (h : blockMapGet blocks key = some s) : (key, s) ∈ blocks := by
  rw [blockMapGet] at h
  obtain ⟨e, he, hee⟩ := Option.map_eq_some'.1 h
  have hmem : e ∈ blocks := List.mem_reverse.1 (List.mem_of_find?_eq_some he)
  have hkey : e.1 = key := by
    have := List.find?_some he
    exact beq_iff_eq.1 this
  have : e = (key, s) := Prod.ext hkey hee
  rw [← this]
  exact hmem

theorem blockMapGet_none {blocks : List (Vec3 × Nat)} {key : Vec3}
    (h : blockMapGet blocks key = none) : ∀ s, (key, s) ∉ blocks := by
  intro s hmem
  rw [blockMapGet, Option.map_eq_none'] at h
  rw [List.find?_eq_none] at h
  have := h (key, s) (List.mem_reverse.2 hmem)
  simp at this

theorem mem_fst_nodup_unique {l : List (Vec3 × Nat)}
    (h : (l.map (fun b => b.1)).Nodup) {k : Vec3} {s t : Nat} :
    (k, s) ∈ l → (k, t) ∈ l → s = t := by
  induction l with
  | nil => intro h1; exact absurd h1 (by simp)
  | cons a tl ih =>
    intro h1 h2
    simp only [List.map_cons, List.nodup_cons] at h
    rcases List.mem_cons.1 h1 with h1 | h1 <;> rcases List.mem_cons.1 h2 with h2 | h2
    · rw [← h1] at h2
      exact ((Prod.ext_iff.1 h2).2).symm
    · exact absurd (List.mem_map.2 ⟨(k, t), h2, by rw [← h1]⟩) h.1
    · exact absurd (List.mem_map.2 ⟨(k, s), h1, by rw [← h2]⟩) h.1
    · exact ih h.2 h1 h2

theorem blockMapGet_of_mem {blocks : List (Vec3 × Nat)} {key : Vec3} {s : Nat}
    (hnodup : (blocks.map (fun b => b.1)).Nodup) (hmem : (key, s) ∈ blocks) :
    blockMapGet blocks key = some s := by
  cases hbm : blockMapGet blocks key with
  | none => exact absurd hmem (blockMapGet_none hbm s)
  | some t =>
    rw [mem_fst_nodup_unique hnodup hmem (blockMapGet_mem hbm)]

/-! ## Lemmas: decoder-side palette and membership (C1) -/

/-- The decoder's palette map on a saved file recovers the encoder's
index-to-name map (the two swaps cancel). -/
theorem paletteMapGet_swap (names : List (Int × String)) (j : Int) :
    paletteMapGet (names.map (fun e => (e.2, e.1))) j = mapLookupLast names j := by
  rw [paletteMapGet, List.map_map]
  have hcomp : ((fun (e : String × Int) => (e.2, e.1)) ∘
      (fun (e : Int × String) => (e.2, e.1))) = id := funext fun e => rfl
  rw [hcomp, List.map_id]

/-- Introduction form for membership in the decoder's block list. -/
theorem schemBlocksOf_mem_intro {reg : BlockRegistry} {pal : List (String × Int)}
    {w l : Nat} {off : Vec3} {air : Nat} {idxs : List Int} (i : Nat)
    (hi : i < idxs.length)
    (hne : schemStateIdOf reg pal air idxs[i] ≠ air) :
    (⟨((schemCoords w l i).1 : Int) + off.x,
      ((schemCoords w l i).2.1 : Int) + off.y,
      ((schemCoords w l i).2.2 : Int) + off.z⟩,
     schemStateIdOf reg pal air idxs[i]) ∈ schemBlocksOf reg pal w l off air idxs := by
  rw [schemBlocksOf]
  have hlen : i < idxs.enum.length := by
    rw [List.enum_length]
    exact hi
  have hmem : (i, idxs[i]) ∈ idxs.enum := by
    have hg := List.getElem_enum idxs i hlen
    rw [← hg]
    exact List.getElem_mem hlen
  rw [List.mem_filterMap]
  refine ⟨(i, idxs[i]), hmem, ?_⟩
  show ((if schemStateIdOf reg pal air idxs[i] ≠ air then
      some ((⟨((schemCoords w l i).1 : Int) + off.x,
            ((schemCoords w l i).2.1 : Int) + off.y,
            ((schemCoords w l i).2.2 : Int) + off.z⟩ : Vec3),
           schemStateIdOf reg pal air idxs[i])
    else none : Option (Vec3 × Nat)) = _)
  rw [if_pos hne]

/-- The inverse coordinate map: the flat index of `(dx, dy, dz)`. -/
theorem schemCoords_encode (w l h dx dy dz : Nat) (hx : dx < w) (hz : dz < l)
    (hy : dy < h) :
    dx + dz * w + dy * (w * l) < w * h * l ∧
    schemCoords w l (dx + dz * w + dy * (w * l)) = (dx, dy, dz) := by
  have hw : 0 < w := by omega
  have hl : 0 < l := by omega
  have hrem : dx + dz * w < w * l := by
    calc dx + dz * w < w + dz * w := by omega
      _ = (dz + 1) * w := by ring
      _ ≤ l * w := Nat.mul_le_mul_right w (by omega)
      _ = w * l := Nat.mul_comm l w
  constructor
  · have h1 : dx + dz * w + dy * (w * l) < (dy + 1) * (w * l) := by
      have : (dy + 1) * (w * l) = dy * (w * l) + w * l := by ring
      omega
    have h2 : (dy + 1) * (w * l) ≤ h * (w * l) := Nat.mul_le_mul_right _ (by omega)
    have h3 : h * (w * l) = w * h * l := by ring
    omega
  · rw [schemCoords]
    have hdiv : (dx + dz * w + dy * (w * l)) / (w * l) = dy := by
      rw [Nat.add_mul_div_right _ _ (by positivity), Nat.div_eq_of_lt hrem]
      omega
    have hmod : (dx + dz * w + dy * (w * l)) % (w * l) = dx + dz * w := by
      rw [Nat.add_mul_mod_self_right]
      exact Nat.mod_eq_of_lt hrem
    have hz2 : (dx + dz * w) / w = dz := by
      rw [Nat.add_mul_div_right _ _ hw, Nat.div_eq_of_lt hx]
      omega
    have hx2 : (dx + dz * w) % w = dx := by
      rw [Nat.add_mul_mod_self_right]
      exact Nat.mod_eq_of_lt hx
    rw [hdiv, hmod, hz2, hx2]

/-! ## C1: the grid/decode equivalence -/

/-- Values in the encoder's grid are valid `i32` palette indices. -/
theorem grid_values_bounded {reg : BlockRegistry} {air : Nat} {acc : PaletteAcc}
    (hinv : PalInv reg air acc) (hlen : acc.palette.length ≤ 65536)
    (w l h : Nat) (mi : Vec3) (cb : List (Vec3 × Nat)) :
    ∀ v ∈ buildBlockData w l h mi cb acc.palette,
      -2147483648 ≤ v ∧ v < 2147483648 := by
  intro v hv
  rw [buildBlockData_eq] at hv
  obtain ⟨i, _, hveq⟩ := List.mem_map.1 hv
  rw [← hveq, gridCellAt]
  split
  · split
    · rename_i idx hidx
      have hb := hinv.key_bound _ _ hidx
      have hnext := hinv.next_eq
      constructor <;> omega
    · constructor <;> norm_num
  · constructor <;> norm_num

/-- Decoding the encoder's grid through the written palette recovers exactly
the clipboard entries (the heart of the round trip). -/
theorem schemBlocks_grid_iff (reg : BlockRegistry) (cb : List (Vec3 × Nat))
    (mi ma : Vec3) (w h l : Nat) (acc : PaletteAcc)
    (hinv : PalInv reg (airStateId reg) acc)
    (hpresent : ∀ b ∈ cb, ∃ i, paletteLookup acc.palette b.2 = some i)
    (hnodup : (cb.map (fun b => b.1)).Nodup)
    (hstates : ∀ b ∈ cb, b.2 ≠ airStateId reg ∧ b.2 < 65536)
    (hbuild : ∀ b ∈ cb,
      resolve_block_state reg (build_block_state_string reg b.2) = some b.2)
    (hairres : resolve_block_state reg "minecraft:air" = some (airStateId reg))
    (hbound : ∀ b ∈ cb, mi.x ≤ b.1.x ∧ b.1.x ≤ ma.x ∧ mi.y ≤ b.1.y ∧
      b.1.y ≤ ma.y ∧ mi.z ≤ b.1.z ∧ b.1.z ≤ ma.z)
    (hw : (w : Int) = ma.x - mi.x + 1) (hh : (h : Int) = ma.y - mi.y + 1)
    (hl : (l : Int) = ma.z - mi.z + 1) :
    ∀ pr, pr ∈ schemBlocksOf reg (acc.palette_names.map (fun e => (e.2, e.1)))
        w l mi (airStateId reg) (buildBlockData w l h mi cb acc.palette) ↔
      pr ∈ cb := by
  intro pr
  constructor
  · intro hpr
    obtain ⟨i, pi, hienum, hne, hpeq⟩ := schemBlocksOf_mem hpr
    obtain ⟨hi, hpi⟩ := List.mem_enum hienum
    rw [buildBlockData_getElem w l h mi cb acc.palette i hi] at hpi
    rcases hbm : blockMapGet cb ⟨((schemCoords w l i).1 : Int) + mi.x,
        ((schemCoords w l i).2.1 : Int) + mi.y,
        ((schemCoords w l i).2.2 : Int) + mi.z⟩ with _ | sid
    · rw [gridCellAt, hbm] at hpi
      have hpi0 : pi = 0 := hpi
      exact absurd (by
        rw [hpi0]
        simp only [schemStateIdOf, paletteMapGet_swap, hinv.name_zero, hairres]) hne
    · rw [gridCellAt, hbm] at hpi
      have hmem := blockMapGet_mem hbm
      obtain ⟨idx, hidx⟩ := hpresent _ hmem
      have hidx2 : paletteLookup acc.palette sid = some idx := hidx
      have hpi1 : pi = (match paletteLookup acc.palette sid with
        | some palette_idx => palette_idx
        | none => 0) := hpi
      rw [hidx2] at hpi1
      have hpi2 : pi = idx := hpi1
      have hsid2 : sid ≠ airStateId reg ∧ sid < 65536 := hstates _ hmem
      have hname := hinv.name_of sid idx hidx2 hsid2.1
      have hbuild2 : resolve_block_state reg (build_block_state_string reg sid) =
        some sid := hbuild _ hmem
      have hstate : schemStateIdOf reg
          (acc.palette_names.map (fun e => (e.2, e.1))) (airStateId reg) pi = sid := by
        rw [hpi2]
        simp only [schemStateIdOf, paletteMapGet_swap, hname, hbuild2]
      rw [hpeq, hstate]
      exact hmem
  · intro hpr
    have hb := hbound pr hpr
    have hsid := hstates pr hpr
    have hdxlt : (pr.1.x - mi.x).toNat < w := by omega
    have hdylt : (pr.1.y - mi.y).toNat < h := by omega
    have hdzlt : (pr.1.z - mi.z).toNat < l := by omega
    obtain ⟨hilt, hcoords⟩ := schemCoords_encode w l h (pr.1.x - mi.x).toNat
      (pr.1.y - mi.y).toNat (pr.1.z - mi.z).toNat hdxlt hdzlt hdylt
    have hgridlen := buildBlockData_length w l h mi cb acc.palette
    have higrid : (pr.1.x - mi.x).toNat + (pr.1.z - mi.z).toNat * w +
        (pr.1.y - mi.y).toNat * (w * l) <
        (buildBlockData w l h mi cb acc.palette).length := by
      rw [hgridlen]
      have hassoc : h * (l * w) = w * h * l := by ring
      omega
    have hcell := buildBlockData_getElem w l h mi cb acc.palette _ higrid
    rw [hcoords] at hcell
    have hkx : (((pr.1.x - mi.x).toNat : Int)) + mi.x = pr.1.x := by omega
    have hky : (((pr.1.y - mi.y).toNat : Int)) + mi.y = pr.1.y := by omega
    have hkz : (((pr.1.z - mi.z).toNat : Int)) + mi.z = pr.1.z := by omega
    have hkey : (⟨(((pr.1.x - mi.x).toNat : Int)) + mi.x,
        (((pr.1.y - mi.y).toNat : Int)) + mi.y,
        (((pr.1.z - mi.z).toNat : Int)) + mi.z⟩ : Vec3) = pr.1 := by
      rw [hkx, hky, hkz]
    have hbm : blockMapGet cb pr.1 = some pr.2 :=
      blockMapGet_of_mem hnodup (by
        rw [show ((pr.1, pr.2) : Vec3 × Nat) = pr from rfl]
        exact hpr)
    obtain ⟨idx, hidx⟩ := hpresent pr hpr
    have hcellval : getElem (buildBlockData w l h mi cb acc.palette)
        ((pr.1.x - mi.x).toNat + (pr.1.z - mi.z).toNat * w +
         (pr.1.y - mi.y).toNat * (w * l)) higrid = idx := by
      rw [hcell, gridCellAt]
      rw [show (⟨(((pr.1.x - mi.x).toNat : Int)) + mi.x,
        (((pr.1.y - mi.y).toNat : Int)) + mi.y,
        (((pr.1.z - mi.z).toNat : Int)) + mi.z⟩ : Vec3) = pr.1 from hkey, hbm]
      show (match paletteLookup acc.palette pr.2 with
        | some palette_idx => palette_idx
        | none => 0) = idx
      rw [hidx]
    have hname := hinv.name_of pr.2 idx hidx hsid.1
    have hstate : schemStateIdOf reg
        (acc.palette_names.map (fun e => (e.2, e.1))) (airStateId reg)
        (getElem (buildBlockData w l h mi cb acc.palette)
          ((pr.1.x - mi.x).toNat + (pr.1.z - mi.z).toNat * w +
           (pr.1.y - mi.y).toNat * (w * l)) higrid) = pr.2 := by
      rw [hcellval]
      simp only [schemStateIdOf, paletteMapGet_swap, hname, hbuild pr hpr]
    have hintro := @schemBlocksOf_mem_intro reg
      (acc.palette_names.map (fun e => (e.2, e.1))) w l mi (airStateId reg)
      (buildBlockData w l h mi cb acc.palette)
      ((pr.1.x - mi.x).toNat + (pr.1.z - mi.z).toNat * w +
        (pr.1.y - mi.y).toNat * (w * l)) higrid
      (by rw [hstate]; exact hsid.1)
    rw [hcoords, hstate] at hintro
    have hfin : ((⟨(((pr.1.x - mi.x).toNat : Int)) + mi.x,
        (((pr.1.y - mi.y).toNat : Int)) + mi.y,
        (((pr.1.z - mi.z).toNat : Int)) + mi.z⟩ : Vec3), pr.2) = pr := by
      rw [hkx, hky, hkz]
    rw [← hfin]
    exact hintro

/-! ## C1: the round trip -/

/-- The palette fold's starting accumulator satisfies the invariant whenever
the air state id fits in `u16`. -/
theorem palInv_init (reg : BlockRegistry) (air : Nat) (hair : air < 65536) :
    PalInv reg air
      { palette := [(air, 0)],
        palette_names := [(0, "minecraft:air")],
        next_index := 1 } := by
  refine ⟨?_, ?_, rfl, ?_, rfl, ?_, ?_, ?_⟩
  · rw [paletteLookup_single, if_pos rfl]
  · intro s i h
    rw [paletteLookup_single] at h
    split at h
    · have h0 : (0 : Int) = i := Option.some.inj h
      show 0 ≤ i ∧ i < 1
      omega
    · exact absurd h (by simp)
  · intro s i h hs
    rw [paletteLookup_single] at h
    split at h
    · rename_i he
      exact absurd he.symm hs
    · exact absurd h (by simp)
  · intro e he
    rw [List.mem_singleton] at he
    rw [he]
    exact ⟨le_refl 0, by norm_num⟩
  · simp
  · intro k hk
    simp only [List.map_cons, List.map_nil, List.mem_singleton] at hk
    omega

/-- Successful single-region load, assembled from a successful varint decode
of the expected length. -/
theorem loadSchematicCore_intro (reg : BlockRegistry) (w h l : Nat) (off : Vec3)
    (pal : List (String × Int)) (data : List Nat) (bi : List Int)
    (hdec : decode_varints data (w * h * l) = .ok bi)
    (hlen : bi.length = w * h * l) :
    loadSchematicCore reg w h l off pal data =
      .ok { width := w, height := h, length := l, offset := off,
            blocks := schemBlocksOf reg pal w l off (airStateId reg) bi } := by
  simp only [loadSchematicCore, hdec, hlen]
  rw [if_neg (by omega)]

/-- C1: for a non-empty clipboard with no air entries, `u16` state ids,
pairwise-distinct positions, a bounding box spanning at most 65535 on each
axis (the claim allowed 65536, which fails: see the counterexample), and a
registry that resolves built state strings back to their state id,
`save_schematic` followed by `load_schematic` recovers exactly the input set
of `(position, state id)` pairs. -/
theorem C1_roundtrip (reg : BlockRegistry) (b0 : Vec3 × Nat)
    (rest : List (Vec3 × Nat))
    (hair16 : airStateId reg < 65536)
    (hstates : ∀ b ∈ b0 :: rest, b.2 ≠ airStateId reg ∧ b.2 < 65536)
    (hnodup : ((b0 :: rest).map (fun b => b.1)).Nodup)
    (hbuild : ∀ b ∈ b0 :: rest,
      resolve_block_state reg (build_block_state_string reg b.2) = some b.2)
    (hairres : resolve_block_state reg "minecraft:air" = some (airStateId reg))
    (hspread : ∀ a ∈ b0 :: rest, ∀ b ∈ b0 :: rest,
      a.1.x - b.1.x ≤ 65534 ∧ a.1.y - b.1.y ≤ 65534 ∧ a.1.z - b.1.z ≤ 65534) :
    ∃ f bs, saveSchematicCore reg ⟨b0 :: rest⟩ = .ok f ∧
      loadSchemFileV3 reg f = .ok bs ∧
      ∀ pr, pr ∈ bs.blocks ↔ pr ∈ b0 :: rest := by
  have main : ∀ mi ma : Vec3, clipBounds (b0 :: rest) b0.1 = (mi, ma) →
      ∃ f bs, saveSchematicCore reg ⟨b0 :: rest⟩ = .ok f ∧
        loadSchemFileV3 reg f = .ok bs ∧
        ∀ pr, pr ∈ bs.blocks ↔ pr ∈ b0 :: rest := by
    intro mi ma hclip
    obtain ⟨hbound0, hxm, hxM, hym, hyM, hzm, hzM⟩ :=
      clipBounds_spec (b0 :: rest) b0.1 ⟨b0, List.mem_cons_self b0 rest, rfl⟩
    rw [hclip] at hbound0 hxm hxM hym hyM hzm hzM
    have hbound : ∀ b ∈ b0 :: rest, mi.x ≤ b.1.x ∧ b.1.x ≤ ma.x ∧
        mi.y ≤ b.1.y ∧ b.1.y ≤ ma.y ∧ mi.z ≤ b.1.z ∧ b.1.z ≤ ma.z := hbound0
    obtain ⟨bxm, hbxm, hbxme0⟩ := hxm
    obtain ⟨bxM, hbxM, hbxMe0⟩ := hxM
    obtain ⟨bym, hbym, hbyme0⟩ := hym
    obtain ⟨byM, hbyM, hbyMe0⟩ := hyM
    obtain ⟨bzm, hbzm, hbzme0⟩ := hzm
    obtain ⟨bzM, hbzM, hbzMe0⟩ := hzM
    have hbxme : bxm.1.x = mi.x := hbxme0
    have hbxMe : bxM.1.x = ma.x := hbxMe0
    have hbyme : bym.1.y = mi.y := hbyme0
    have hbyMe : byM.1.y = ma.y := hbyMe0
    have hbzme : bzm.1.z = mi.z := hbzme0
    have hbzMe : bzM.1.z = ma.z := hbzMe0
    have hb0b := hbound b0 (List.mem_cons_self b0 rest)
    have hW : ((toU16 (ma.x - mi.x + 1) : Nat) : Int) = ma.x - mi.x + 1 := by
      have hsp := (hspread bxM hbxM bxm hbxm).1
      exact toU16_eq_self _ (by omega) (by omega)
    have hH : ((toU16 (ma.y - mi.y + 1) : Nat) : Int) = ma.y - mi.y + 1 := by
      have hsp := (hspread byM hbyM bym hbym).2.1
      exact toU16_eq_self _ (by omega) (by omega)
    have hL : ((toU16 (ma.z - mi.z + 1) : Nat) : Int) = ma.z - mi.z + 1 := by
      have hsp := (hspread bzM hbzM bzm hbzm).2.2
      exact toU16_eq_self _ (by omega) (by omega)
    have hinv : PalInv reg (airStateId reg)
        (buildPaletteAcc reg (airStateId reg) (b0 :: rest)) :=
      palFold_inv (b0 :: rest) _ (palInv_init reg (airStateId reg) hair16)
        (fun b hb => (hstates b hb).2)
    have hpresent : ∀ b ∈ b0 :: rest, ∃ i, paletteLookup
        (buildPaletteAcc reg (airStateId reg) (b0 :: rest)).palette b.2 = some i :=
      fun b hb => palFold_present (b0 :: rest) _ b hb
    have hpal65536 :
        (buildPaletteAcc reg (airStateId reg) (b0 :: rest)).palette.length ≤ 65536 :=
      palette_length_le _ hinv.keys_nodup hinv.keys_lt
    have hvals := grid_values_bounded hinv hpal65536 (toU16 (ma.x - mi.x + 1))
      (toU16 (ma.z - mi.z + 1)) (toU16 (ma.y - mi.y + 1)) mi (b0 :: rest)
    have hgl := buildBlockData_length (toU16 (ma.x - mi.x + 1))
      (toU16 (ma.z - mi.z + 1)) (toU16 (ma.y - mi.y + 1)) mi (b0 :: rest)
      (buildPaletteAcc reg (airStateId reg) (b0 :: rest)).palette
    have hcnt : toU16 (ma.x - mi.x + 1) * toU16 (ma.y - mi.y + 1) *
        toU16 (ma.z - mi.z + 1) =
        (buildBlockData (toU16 (ma.x - mi.x + 1)) (toU16 (ma.z - mi.z + 1))
          (toU16 (ma.y - mi.y + 1)) mi (b0 :: rest)
          (buildPaletteAcc reg (airStateId reg) (b0 :: rest)).palette).length := by
      rw [hgl]
      ring
    have hdec : decode_varints
        (encode_varints (buildBlockData (toU16 (ma.x - mi.x + 1))
          (toU16 (ma.z - mi.z + 1)) (toU16 (ma.y - mi.y + 1)) mi (b0 :: rest)
          (buildPaletteAcc reg (airStateId reg) (b0 :: rest)).palette))
        (toU16 (ma.x - mi.x + 1) * toU16 (ma.y - mi.y + 1) *
          toU16 (ma.z - mi.z + 1)) = .ok
        (buildBlockData (toU16 (ma.x - mi.x + 1)) (toU16 (ma.z - mi.z + 1))
          (toU16 (ma.y - mi.y + 1)) mi (b0 :: rest)
          (buildPaletteAcc reg (airStateId reg) (b0 :: rest)).palette) := by
      rw [hcnt]
      exact decode_encode_varints _ hvals
    refine ⟨⟨3, 4671, toU16 (ma.x - mi.x + 1), toU16 (ma.y - mi.y + 1),
        toU16 (ma.z - mi.z + 1), mi,
        (buildPaletteAcc reg (airStateId reg) (b0 :: rest)).palette_names.map
          (fun e => (e.2, e.1)),
        encode_varints (buildBlockData (toU16 (ma.x - mi.x + 1))
          (toU16 (ma.z - mi.z + 1)) (toU16 (ma.y - mi.y + 1)) mi (b0 :: rest)
          (buildPaletteAcc reg (airStateId reg) (b0 :: rest)).palette)⟩,
      ⟨toU16 (ma.x - mi.x + 1), toU16 (ma.y - mi.y + 1), toU16 (ma.z - mi.z + 1),
        mi, schemBlocksOf reg
          ((buildPaletteAcc reg (airStateId reg) (b0 :: rest)).palette_names.map
            (fun e => (e.2, e.1)))
          (toU16 (ma.x - mi.x + 1)) (toU16 (ma.z - mi.z + 1)) mi (airStateId reg)
          (buildBlockData (toU16 (ma.x - mi.x + 1)) (toU16 (ma.z - mi.z + 1))
            (toU16 (ma.y - mi.y + 1)) mi (b0 :: rest)
            (buildPaletteAcc reg (airStateId reg) (b0 :: rest)).palette)⟩,
      ?_, ?_, ?_⟩
    · simp only [saveSchematicCore, hclip]
    · exact loadSchematicCore_intro reg _ _ _ mi _ _ _ hdec hcnt.symm
    · intro pr
      exact schemBlocks_grid_iff reg (b0 :: rest) mi ma (toU16 (ma.x - mi.x + 1))
        (toU16 (ma.y - mi.y + 1)) (toU16 (ma.z - mi.z + 1))
        (buildPaletteAcc reg (airStateId reg) (b0 :: rest)) hinv hpresent hnodup
        hstates hbuild hairres hbound hW hH hL pr
  exact main (clipBounds (b0 :: rest) b0.1).1 (clipBounds (b0 :: rest) b0.1).2 rfl

/-- Counterexample to C1 as stated: the clipboard
`[((0,0,0), stone), ((65535,0,0), stone)]` has no air entries and its bounding
box spans exactly 65536 on the x axis (within the claim's bound), yet the
saved width is `65536 mod 2^16 = 0`, the grid is empty, and the decoded
blocks are `[]`, losing both input blocks. -/
theorem C1_counterexample :
    (∀ b ∈ [((⟨0, 0, 0⟩ : Vec3), 1), ((⟨65535, 0, 0⟩ : Vec3), 1)],
      b.2 ≠ airStateId testReg) ∧
    clipBounds [((⟨0, 0, 0⟩ : Vec3), 1), ((⟨65535, 0, 0⟩ : Vec3), 1)] ⟨0, 0, 0⟩ =
      (⟨0, 0, 0⟩, ⟨65535, 0, 0⟩) ∧
    saveSchematicCore testReg
        ⟨[((⟨0, 0, 0⟩ : Vec3), 1), ((⟨65535, 0, 0⟩ : Vec3), 1)]⟩ =
      .ok ⟨3, 4671, 0, 1, 1, ⟨0, 0, 0⟩,
        [("minecraft:air", 0), ("minecraft:stone", 1)], []⟩ ∧
    loadSchemFileV3 testReg ⟨3, 4671, 0, 1, 1, ⟨0, 0, 0⟩,
        [("minecraft:air", 0), ("minecraft:stone", 1)], []⟩ =
      .ok ⟨0, 1, 1, ⟨0, 0, 0⟩, []⟩ ∧
    ((⟨0, 0, 0⟩ : Vec3), 1) ∉
      (⟨0, 1, 1, ⟨0, 0, 0⟩, ([] : List (Vec3 × Nat))⟩ : SchematicData).blocks :=
  ⟨by decide, by decide, rfl, rfl, by decide⟩

/-- Witness for C1 on the one-block clipboard `[((0,0,0), stone)]` over the
two-block test registry. -/
theorem C1_roundtrip_witness :
    (∀ b ∈ [((⟨0, 0, 0⟩ : Vec3), 1)], b.2 ≠ airStateId testReg ∧ b.2 < 65536) ∧
    (∃ f bs, saveSchematicCore testReg ⟨[((⟨0, 0, 0⟩ : Vec3), 1)]⟩ = .ok f ∧
      loadSchemFileV3 testReg f = .ok bs ∧
      ∀ pr, pr ∈ bs.blocks ↔ pr ∈ [((⟨0, 0, 0⟩ : Vec3), 1)]) :=
  ⟨by decide, C1_roundtrip testReg (⟨0, 0, 0⟩, 1) [] (by decide) (by decide)
    (by decide) (by decide) (by decide) (by decide)⟩

end WorldEdit
